import Mathlib

/-!
Verification of the MLX CPU quantized-matmul core
(`mlx/backend/cpu/quantized.cpp`), shallowly embedded in Lean.

Buffers are modelled as total functions: float buffers as `ℕ → ℚ`
(exact rational arithmetic standing in for the C++ floating element
types), byte/word buffers as `ℕ → ℕ`.  Pointers are modelled as base
offsets into those functions; machine-integer truncation is written as
an explicit `% 2 ^ w` where the code can overflow.
-/

namespace MLXQuant

/-- Pointwise update of a buffer, modelling a store through a pointer. -/
def upd {α : Type} (f : ℕ → α) (i : ℕ) (v : α) : ℕ → α :=
  fun j => if j = i then v else f j

/-- `get_pack_factor(bits, wsize)`:
`(bits == 3 || bits == 5) ? 8 : (bits == 6 ? 4 : wsize / bits)`. -/
def get_pack_factor (bits : ℕ) (wsize : ℕ) : ℕ :=
  if bits = 3 ∨ bits = 5 then 8 else if bits = 6 then 4 else wsize / bits

/-- `get_bytes_per_pack(bits, wsize)`:
`power_of_2_bits ? (wsize / 8) : (bits == 5 ? 5 : 3)` where
`power_of_2_bits = (bits & (bits - 1)) == 0`. -/
def get_bytes_per_pack (bits : ℕ) (wsize : ℕ) : ℕ :=
  if bits &&& (bits - 1) = 0 then wsize / 8 else if bits = 5 then 5 else 3

/-- `extract_bits<T, bits>(w_in, w_out)` for `bits ∈ {3,5,6}`: the fixed
bit-offset formulas of the source, reading `get_bytes_per_pack bits 8`
bytes starting at `off` and producing the `get_pack_factor bits 8`
decoded values in order.  Unknown widths produce `[]` (the template is
never instantiated there, guarded by a `static_assert`). -/
def extract_bits (bits : ℕ) (w_in : ℕ → ℕ) (off : ℕ) : List ℕ :=
  if bits = 3 then
    [w_in off &&& 0x7,
     (w_in off &&& 0x38) >>> 3,
     ((w_in off &&& 0xc0) >>> 6) + ((w_in (off+1) &&& 0x1) <<< 2),
     (w_in (off+1) &&& 0xe) >>> 1,
     (w_in (off+1) &&& 0x70) >>> 4,
     ((w_in (off+1) &&& 0x80) >>> 7) + ((w_in (off+2) &&& 0x3) <<< 1),
     (w_in (off+2) &&& 0x1c) >>> 2,
     (w_in (off+2) &&& 0xe0) >>> 5]
  else if bits = 5 then
    [w_in off &&& 0x1f,
     ((w_in off &&& 0xe0) >>> 5) + ((w_in (off+1) &&& 0x3) <<< 3),
     (w_in (off+1) &&& 0x7c) >>> 2,
     ((w_in (off+1) &&& 0x80) >>> 7) + ((w_in (off+2) &&& 0xf) <<< 1),
     ((w_in (off+2) &&& 0xf0) >>> 4) + ((w_in (off+3) &&& 0x1) <<< 4),
     (w_in (off+3) &&& 0x3e) >>> 1,
     ((w_in (off+3) &&& 0xc0) >>> 6) + ((w_in (off+4) &&& 0x7) <<< 2),
     (w_in (off+4) &&& 0xf8) >>> 3]
  else if bits = 6 then
    [w_in off &&& 0x3f,
     ((w_in off >>> 6) &&& 0x03) + ((w_in (off+1) &&& 0x0f) <<< 2),
     ((w_in (off+1) >>> 4) &&& 0x0f) + ((w_in (off+2) &&& 0x03) <<< 4),
     (w_in (off+2) >>> 2) &&& 0x3f]
  else []

/-- The power-of-two decode loop of the kernels, unrolled:
`uint8_t wi = *w_local; for p < pack_factor: emit (wi & bitmask); wi >>= bits`
(after `p` shifts `wi = byte >>> (bits * p)`; for `bits = 8` the loop
body runs once and never shifts). `bitmask = (1 << bits) - 1`. -/
def shift_mask_decode (bits : ℕ) (wi : ℕ) : List ℕ :=
  (List.range (get_pack_factor bits 8)).map
    (fun p => (wi >>> (bits * p)) &&& ((1 <<< bits) - 1))

/-- The kernels' per-pack decode: `extract_bits` for widths 3/5/6, the
shift-and-mask loop on one byte for power-of-two widths. -/
def decode_pack (bits : ℕ) (w_in : ℕ → ℕ) (off : ℕ) : List ℕ :=
  if bits = 3 ∨ bits = 5 ∨ bits = 6 then extract_bits bits w_in off
  else shift_mask_decode bits (w_in off)

/-- The packed code decoded at stream position `i` of a byte buffer:
position `i` lives in pack `i / pack_factor` (which starts at byte
offset `(i / pack_factor) * bytes_per_pack`) at intra-pack slot
`i % pack_factor`. -/
def codeAt (bits : ℕ) (w_in : ℕ → ℕ) (i : ℕ) : ℕ :=
  (decode_pack bits w_in
      ((i / get_pack_factor bits 8) * get_bytes_per_pack bits 8)).getD
    (i % get_pack_factor bits 8) 0

theorem and_sr_le (x m s c : ℕ) (h : m >>> s = c) : (x &&& m) >>> s ≤ c := by
  subst h
  simp only [Nat.shiftRight_eq_div_pow]
  exact Nat.div_le_div_right Nat.and_le_right

theorem and_sl_le (x m s c : ℕ) (h : m <<< s = c) : (x &&& m) <<< s ≤ c := by
  subst h
  simp only [Nat.shiftLeft_eq]
  exact Nat.mul_le_mul_right _ Nat.and_le_right

/-- C9: for every bit width in {3,5,6} and arbitrary input bytes,
`extract_bits` emits exactly `pack_factor` values, each in
`[0, 2^bits - 1]`. -/
theorem extract_bits_length_range (bits : ℕ) (w_in : ℕ → ℕ) (off : ℕ)
    (hb : bits = 3 ∨ bits = 5 ∨ bits = 6) :
    (extract_bits bits w_in off).length = get_pack_factor bits 8 ∧
      ∀ v ∈ extract_bits bits w_in off, v < 2 ^ bits := by
  have h1 := fun (x : ℕ) m => @Nat.and_le_right x m
  rcases hb with rfl | rfl | rfl <;>
    refine ⟨rfl, ?_⟩ <;>
    intro v hv <;>
    norm_num [extract_bits] at hv
  · rcases hv with rfl | rfl | rfl | rfl | rfl | rfl | rfl | rfl
    · have := h1 (w_in off) 0x7; omega
    · have := and_sr_le (w_in off) 0x38 3 7 rfl; omega
    · have := and_sr_le (w_in off) 0xc0 6 3 rfl
      have := and_sl_le (w_in (off+1)) 0x1 2 4 rfl; omega
    · have := and_sr_le (w_in (off+1)) 0xe 1 7 rfl; omega
    · have := and_sr_le (w_in (off+1)) 0x70 4 7 rfl; omega
    · have := and_sr_le (w_in (off+1)) 0x80 7 1 rfl
      have := and_sl_le (w_in (off+2)) 0x3 1 6 rfl; omega
    · have := and_sr_le (w_in (off+2)) 0x1c 2 7 rfl; omega
    · have := and_sr_le (w_in (off+2)) 0xe0 5 7 rfl; omega
  · rcases hv with rfl | rfl | rfl | rfl | rfl | rfl | rfl | rfl
    · have := h1 (w_in off) 0x1f; omega
    · have := and_sr_le (w_in off) 0xe0 5 7 rfl
      have := and_sl_le (w_in (off+1)) 0x3 3 24 rfl; omega
    · have := and_sr_le (w_in (off+1)) 0x7c 2 31 rfl; omega
    · have := and_sr_le (w_in (off+1)) 0x80 7 1 rfl
      have := and_sl_le (w_in (off+2)) 0xf 1 30 rfl; omega
    · have := and_sr_le (w_in (off+2)) 0xf0 4 15 rfl
      have := and_sl_le (w_in (off+3)) 0x1 4 16 rfl; omega
    · have := and_sr_le (w_in (off+3)) 0x3e 1 31 rfl; omega
    · have := and_sr_le (w_in (off+3)) 0xc0 6 3 rfl
      have := and_sl_le (w_in (off+4)) 0x7 2 28 rfl; omega
    · have := h1 (w_in (off+4)) 0xf8
      have := and_sr_le (w_in (off+4)) 0xf8 3 31 rfl; omega
  · rcases hv with rfl | rfl | rfl | rfl
    · have := h1 (w_in off) 0x3f; omega
    · have := h1 (w_in off >>> 6) 0x03
      have := and_sl_le (w_in (off+1)) 0x0f 2 60 rfl; omega
    · have := h1 (w_in (off+1) >>> 4) 0x0f
      have := and_sl_le (w_in (off+2)) 0x03 4 48 rfl; omega
    · have := h1 (w_in (off+2) >>> 2) 0x3f; omega

/-- Witness for C9 at `bits = 3` on an all-ones byte buffer. -/
theorem extract_bits_length_range_witness :
    (extract_bits 3 (fun _ => 255) 0).length = get_pack_factor 3 8 ∧
      ∀ v ∈ extract_bits 3 (fun _ => 255) 0, v < 2 ^ 3 :=
  extract_bits_length_range 3 (fun _ => 255) 0 (Or.inl rfl)

/-- The accumulation loop inside `quantize`:
`uint64_t out_el = 0; for (k = 0; k < el_per_int; ++k)
out_el |= w_el_k << (k * bits)`.  `pack_codes bits f n` is the
accumulator after `n` iterations, with `f k` the `k`-th code. -/
def pack_codes (bits : ℕ) (f : ℕ → ℕ) : ℕ → ℕ
  | 0 => 0
  | k + 1 => pack_codes bits f k ||| (f k <<< (k * bits))

/-- How one accumulated `out_el` is scattered into the output buffer
starting at cell `pos`: for power-of-two widths the accumulator is
stored into one `uint32_t` cell (the narrowing cast is `% 2 ^ 32`); for
width 5 it is scattered into five bytes, otherwise into three. -/
def write_pack (bits : ℕ) (out : ℕ → ℕ) (pos : ℕ) (out_el : ℕ) : ℕ → ℕ :=
  if bits &&& (bits - 1) = 0 then upd out pos (out_el % 2 ^ 32)
  else if bits = 5 then
    upd (upd (upd (upd (upd out pos (out_el &&& 0xff))
      (pos+1) ((out_el &&& 0xff00) >>> 8))
      (pos+2) ((out_el &&& 0xff0000) >>> 16))
      (pos+3) ((out_el &&& 0xff000000) >>> 24))
      (pos+4) ((out_el &&& 0xff00000000) >>> 32)
  else
    upd (upd (upd out pos (out_el &&& 0xff))
      (pos+1) ((out_el &&& 0xff00) >>> 8))
      (pos+2) ((out_el &&& 0xff0000) >>> 16)

/-- Little-endian byte view of a stored 32-bit word, as produced by the
kernels' `(const uint8_t*)w` reinterpretation on the little-endian
targets the backend supports. -/
def word_bytes (w : ℕ) : ℕ → ℕ := fun j => (w >>> (8 * j)) &&& 0xff

/-- Decoding, with the kernels' decode path, the storage produced by the
quantizer's encode path for one pack of `get_pack_factor bits 32` codes
`f 0, …`: for power-of-two widths the kernels run the shift-and-mask
loop over the four little-endian bytes of the stored word; for widths
3/5/6 they run `extract_bits` over the scattered bytes. -/
def decode_of_encode (bits : ℕ) (f : ℕ → ℕ) : List ℕ :=
  if bits &&& (bits - 1) = 0 then
    let w := pack_codes bits f (get_pack_factor bits 32) % 2 ^ 32
    shift_mask_decode bits (word_bytes w 0) ++ shift_mask_decode bits (word_bytes w 1) ++
      shift_mask_decode bits (word_bytes w 2) ++ shift_mask_decode bits (word_bytes w 3)
  else
    decode_pack bits
      (write_pack bits (fun _ => 0) 0 (pack_codes bits f (get_pack_factor bits 32))) 0

theorem shiftRight_and_distrib (x m s : ℕ) :
    (x &&& m) >>> s = (x >>> s) &&& (m >>> s) := by
  apply Nat.eq_of_testBit_eq
  intro i
  simp [Nat.testBit_shiftRight, Nat.testBit_and]

theorem pack_codes_sum (bits : ℕ) (f : ℕ → ℕ) (n : ℕ)
    (hv : ∀ k < n, f k < 2 ^ bits) :
    pack_codes bits f n = ∑ k ∈ Finset.range n, f k * 2 ^ (k * bits) ∧
      pack_codes bits f n < 2 ^ (n * bits) := by
  induction n with
  | zero => exact ⟨rfl, by simp [pack_codes]⟩
  | succ n ih =>
    obtain ⟨hsum, hlt⟩ := ih (fun k hk => hv k (Nat.lt_succ_of_lt hk))
    have hstep : pack_codes bits f (n + 1)
        = 2 ^ (n * bits) * f n + pack_codes bits f n := by
      show pack_codes bits f n ||| (f n <<< (n * bits)) = _
      rw [Nat.shiftLeft_eq, Nat.mul_comm (f n), Nat.or_comm,
        ← Nat.mul_add_lt_is_or hlt]
    have hfn : f n < 2 ^ bits := hv n (Nat.lt_succ_self n)
    constructor
    · rw [hstep, hsum, Finset.sum_range_succ]
      ring
    · rw [hstep]
      calc 2 ^ (n * bits) * f n + pack_codes bits f n
          < 2 ^ (n * bits) * f n + 2 ^ (n * bits) := by omega
        _ = 2 ^ (n * bits) * (f n + 1) := by ring
        _ ≤ 2 ^ (n * bits) * 2 ^ bits := Nat.mul_le_mul_left _ hfn
        _ = 2 ^ ((n + 1) * bits) := by rw [← pow_add, Nat.succ_mul]

theorem and_mask_3 (x : ℕ) : x &&& 3 = x % 4 := by
  have h := Nat.and_pow_two_sub_one_eq_mod x 2
  norm_num at h
  exact h

theorem and_mask_7 (x : ℕ) : x &&& 7 = x % 8 := by
  have h := Nat.and_pow_two_sub_one_eq_mod x 3
  norm_num at h
  exact h

theorem and_mask_15 (x : ℕ) : x &&& 15 = x % 16 := by
  have h := Nat.and_pow_two_sub_one_eq_mod x 4
  norm_num at h
  exact h

theorem and_mask_31 (x : ℕ) : x &&& 31 = x % 32 := by
  have h := Nat.and_pow_two_sub_one_eq_mod x 5
  norm_num at h
  exact h

theorem and_mask_63 (x : ℕ) : x &&& 63 = x % 64 := by
  have h := Nat.and_pow_two_sub_one_eq_mod x 6
  norm_num at h
  exact h

theorem and_mask_255 (x : ℕ) : x &&& 255 = x % 256 := by
  have h := Nat.and_pow_two_sub_one_eq_mod x 8
  norm_num at h
  exact h

/-- C5: for every bit width in {2,3,4,5,6,8} and every sequence of
`pack_factor` integers in `[0, 2^bits - 1]`, packing with the
quantizer's encode path and decoding with the kernels' decode path
(`extract_bits` for widths 3/5/6, the shift-and-mask loop for 2/4/8)
reproduces the original integers exactly and in order. -/
theorem pack_unpack_inverse (bits : ℕ) (f : ℕ → ℕ)
    (hb : bits = 2 ∨ bits = 3 ∨ bits = 4 ∨ bits = 5 ∨ bits = 6 ∨ bits = 8)
    (hv : ∀ k < get_pack_factor bits 32, f k < 2 ^ bits) :
    decode_of_encode bits f = (List.range (get_pack_factor bits 32)).map f := by
  rcases hb with rfl | rfl | rfl | rfl | rfl | rfl
  · have hpf : get_pack_factor 2 32 = 16 := by decide
    rw [hpf] at hv
    obtain ⟨hsum, hlt⟩ := pack_codes_sum 2 f 16 (fun k hk => hv k hk)
    simp only [Finset.sum_range_succ, Finset.sum_range_zero] at hsum
    norm_num at hsum hlt
    have h0 := hv 0 (by decide); have h1 := hv 1 (by decide)
    have h2 := hv 2 (by decide); have h3 := hv 3 (by decide)
    have h4 := hv 4 (by decide); have h5 := hv 5 (by decide)
    have h6 := hv 6 (by decide); have h7 := hv 7 (by decide)
    have h8 := hv 8 (by decide); have h9 := hv 9 (by decide)
    have h10 := hv 10 (by decide); have h11 := hv 11 (by decide)
    have h12 := hv 12 (by decide); have h13 := hv 13 (by decide)
    have h14 := hv 14 (by decide); have h15 := hv 15 (by decide)
    norm_num at h0 h1 h2 h3 h4 h5 h6 h7 h8 h9 h10 h11 h12 h13 h14 h15
    have hmod : pack_codes 2 f 16 % 2 ^ 32 = pack_codes 2 f 16 :=
      Nat.mod_eq_of_lt (by norm_num at hlt ⊢; omega)
    show decode_of_encode 2 f =
      [f 0, f 1, f 2, f 3, f 4, f 5, f 6, f 7,
       f 8, f 9, f 10, f 11, f 12, f 13, f 14, f 15]
    simp only [decode_of_encode, shift_mask_decode, word_bytes, hpf, hmod,
      if_pos (by decide : ((2:ℕ) &&& (2 - 1) = 0)),
      show get_pack_factor 2 8 = 4 from by decide]
    simp only [List.range_succ, List.range_zero, List.map_append, List.map_cons,
      List.map_nil, List.nil_append, List.cons_append, List.append_assoc]
    simp only [shiftRight_and_distrib]
    norm_num [and_mask_3, and_mask_15, and_mask_63, and_mask_255,
      Nat.shiftRight_eq_div_pow, Nat.shiftLeft_eq]
    omega
  · have hpf : get_pack_factor 3 32 = 8 := by decide
    rw [hpf] at hv
    obtain ⟨hsum, hlt⟩ := pack_codes_sum 3 f 8 (fun k hk => hv k hk)
    simp only [Finset.sum_range_succ, Finset.sum_range_zero] at hsum
    norm_num at hsum hlt
    have h0 := hv 0 (by decide); have h1 := hv 1 (by decide)
    have h2 := hv 2 (by decide); have h3 := hv 3 (by decide)
    have h4 := hv 4 (by decide); have h5 := hv 5 (by decide)
    have h6 := hv 6 (by decide); have h7 := hv 7 (by decide)
    norm_num at h0 h1 h2 h3 h4 h5 h6 h7
    show decode_of_encode 3 f = [f 0, f 1, f 2, f 3, f 4, f 5, f 6, f 7]
    simp only [decode_of_encode, decode_pack, write_pack, extract_bits, hpf,
      if_neg (by decide : ¬((3:ℕ) &&& (3 - 1) = 0)),
      if_neg (by decide : ¬((3:ℕ) = 5)),
      if_pos (by decide : (3:ℕ) = 3),
      if_pos (by decide : (3:ℕ) = 3 ∨ (3:ℕ) = 5 ∨ (3:ℕ) = 6)]
    simp only [shiftRight_and_distrib]
    norm_num [upd, and_mask_3, and_mask_7, and_mask_255,
      Nat.shiftRight_eq_div_pow, Nat.shiftLeft_eq]
    omega
  · have hpf : get_pack_factor 4 32 = 8 := by decide
    rw [hpf] at hv
    obtain ⟨hsum, hlt⟩ := pack_codes_sum 4 f 8 (fun k hk => hv k hk)
    simp only [Finset.sum_range_succ, Finset.sum_range_zero] at hsum
    norm_num at hsum hlt
    have h0 := hv 0 (by decide); have h1 := hv 1 (by decide)
    have h2 := hv 2 (by decide); have h3 := hv 3 (by decide)
    have h4 := hv 4 (by decide); have h5 := hv 5 (by decide)
    have h6 := hv 6 (by decide); have h7 := hv 7 (by decide)
    norm_num at h0 h1 h2 h3 h4 h5 h6 h7
    have hmod : pack_codes 4 f 8 % 2 ^ 32 = pack_codes 4 f 8 :=
      Nat.mod_eq_of_lt (by norm_num at hlt ⊢; omega)
    show decode_of_encode 4 f = [f 0, f 1, f 2, f 3, f 4, f 5, f 6, f 7]
    simp only [decode_of_encode, shift_mask_decode, word_bytes, hpf, hmod,
      if_pos (by decide : ((4:ℕ) &&& (4 - 1) = 0)),
      show get_pack_factor 4 8 = 2 from by decide]
    simp only [List.range_succ, List.range_zero, List.map_append, List.map_cons,
      List.map_nil, List.nil_append, List.cons_append, List.append_assoc]
    simp only [shiftRight_and_distrib]
    norm_num [and_mask_15, and_mask_255,
      Nat.shiftRight_eq_div_pow, Nat.shiftLeft_eq]
    omega
  · have hpf : get_pack_factor 5 32 = 8 := by decide
    rw [hpf] at hv
    obtain ⟨hsum, hlt⟩ := pack_codes_sum 5 f 8 (fun k hk => hv k hk)
    simp only [Finset.sum_range_succ, Finset.sum_range_zero] at hsum
    norm_num at hsum hlt
    have h0 := hv 0 (by decide); have h1 := hv 1 (by decide)
    have h2 := hv 2 (by decide); have h3 := hv 3 (by decide)
    have h4 := hv 4 (by decide); have h5 := hv 5 (by decide)
    have h6 := hv 6 (by decide); have h7 := hv 7 (by decide)
    norm_num at h0 h1 h2 h3 h4 h5 h6 h7
    show decode_of_encode 5 f = [f 0, f 1, f 2, f 3, f 4, f 5, f 6, f 7]
    simp only [decode_of_encode, decode_pack, write_pack, extract_bits, hpf,
      if_neg (by decide : ¬((5:ℕ) &&& (5 - 1) = 0)),
      if_neg (by decide : ¬((5:ℕ) = 3)),
      if_pos (by decide : (5:ℕ) = 5),
      if_pos (by decide : (5:ℕ) = 3 ∨ (5:ℕ) = 5 ∨ (5:ℕ) = 6)]
    simp only [shiftRight_and_distrib]
    norm_num [upd, and_mask_3, and_mask_7, and_mask_15, and_mask_31, and_mask_255,
      Nat.shiftRight_eq_div_pow, Nat.shiftLeft_eq]
    omega
  · have hpf : get_pack_factor 6 32 = 4 := by decide
    rw [hpf] at hv
    obtain ⟨hsum, hlt⟩ := pack_codes_sum 6 f 4 (fun k hk => hv k hk)
    simp only [Finset.sum_range_succ, Finset.sum_range_zero] at hsum
    norm_num at hsum hlt
    have h0 := hv 0 (by decide); have h1 := hv 1 (by decide)
    have h2 := hv 2 (by decide); have h3 := hv 3 (by decide)
    norm_num at h0 h1 h2 h3
    show decode_of_encode 6 f = [f 0, f 1, f 2, f 3]
    simp only [decode_of_encode, decode_pack, write_pack, extract_bits, hpf,
      if_neg (by decide : ¬((6:ℕ) &&& (6 - 1) = 0)),
      if_neg (by decide : ¬((6:ℕ) = 5)),
      if_neg (by decide : ¬((6:ℕ) = 3)),
      if_pos (by decide : (6:ℕ) = 3 ∨ (6:ℕ) = 5 ∨ (6:ℕ) = 6)]
    simp only [shiftRight_and_distrib]
    norm_num [upd, and_mask_3, and_mask_15, and_mask_63, and_mask_255,
      Nat.shiftRight_eq_div_pow, Nat.shiftLeft_eq]
    omega
  · have hpf : get_pack_factor 8 32 = 4 := by decide
    rw [hpf] at hv
    obtain ⟨hsum, hlt⟩ := pack_codes_sum 8 f 4 (fun k hk => hv k hk)
    simp only [Finset.sum_range_succ, Finset.sum_range_zero] at hsum
    norm_num at hsum hlt
    have h0 := hv 0 (by decide); have h1 := hv 1 (by decide)
    have h2 := hv 2 (by decide); have h3 := hv 3 (by decide)
    norm_num at h0 h1 h2 h3
    have hmod : pack_codes 8 f 4 % 2 ^ 32 = pack_codes 8 f 4 :=
      Nat.mod_eq_of_lt (by norm_num at hlt ⊢; omega)
    show decode_of_encode 8 f = [f 0, f 1, f 2, f 3]
    simp only [decode_of_encode, shift_mask_decode, word_bytes, hpf, hmod,
      if_pos (by decide : ((8:ℕ) &&& (8 - 1) = 0)),
      show get_pack_factor 8 8 = 1 from by decide]
    simp only [List.range_succ, List.range_zero, List.map_append, List.map_cons,
      List.map_nil, List.nil_append, List.cons_append, List.append_assoc]
    simp only [shiftRight_and_distrib]
    norm_num [and_mask_255, Nat.shiftRight_eq_div_pow, Nat.shiftLeft_eq]
    omega

/-- Witness for C5 at `bits = 2` on the sequence `k % 4`. -/
theorem pack_unpack_inverse_witness :
    (∀ k < get_pack_factor 2 32, (fun k => k % 4) k < 2 ^ 2) ∧
      decode_of_encode 2 (fun k => k % 4)
        = (List.range (get_pack_factor 2 32)).map (fun k => k % 4) :=
  ⟨by decide, pack_unpack_inverse 2 (fun k => k % 4) (Or.inl rfl) (by decide)⟩

/-- Round to nearest with ties to even: the model of `std::rint` under
the default (`FE_TONEAREST`) rounding mode, on exact rationals. -/
def rintQ (x : ℚ) : ℤ :=
  if x - ⌊x⌋ < 1/2 then ⌊x⌋
  else if 1/2 < x - ⌊x⌋ then ⌊x⌋ + 1
  else if ⌊x⌋ % 2 = 0 then ⌊x⌋ else ⌊x⌋ + 1

theorem rintQ_zero : rintQ 0 = 0 := by norm_num [rintQ]

theorem rintQ_abs_le (x : ℚ) : |x - (rintQ x : ℚ)| ≤ 1 / 2 := by
  have h0 : (⌊x⌋ : ℚ) ≤ x := Int.floor_le x
  have h1 : x < ⌊x⌋ + 1 := Int.lt_floor_add_one x
  unfold rintQ
  split_ifs <;> rw [abs_le] <;> push_cast <;> constructor <;> linarith

/-- `w_max` of a group: the fold `w_max = max(w_max, w[w_idx + j])` over
the group (the `-inf` initialiser of the source is modelled by seeding
with the first element — equivalent for the nonempty groups the code
runs on). -/
def group_max (w : ℕ → ℚ) (base gs : ℕ) : ℚ :=
  (List.range gs).foldl (fun a j => max a (w (base + j))) (w base)

/-- `w_min` of a group, analogously. -/
def group_min (w : ℕ → ℚ) (base gs : ℕ) : ℚ :=
  (List.range gs).foldl (fun a j => min a (w (base + j))) (w base)

/-- The anchored extremum of a group: `mask = |w_min| > |w_max|`;
`edge = mask ? w_min : w_max`. -/
def group_edge (w : ℕ → ℚ) (base gs : ℕ) : ℚ :=
  if |group_min w base gs| > |group_max w base gs| then group_min w base gs
  else group_max w base gs

/-- The signed pre-refinement scale of a group:
`scale = max((w_max - w_min)/n_bins, eps)` with `n_bins = 2^bits - 1`
and `eps = 1e-7`, then `scale = mask ? scale : -scale`. -/
def group_scale1 (bits : ℕ) (w : ℕ → ℚ) (base gs : ℕ) : ℚ :=
  if |group_min w base gs| > |group_max w base gs| then
    max ((group_max w base gs - group_min w base gs) / ((2 ^ bits - 1 : ℕ) : ℚ))
      (1 / 10 ^ 7)
  else
    -max ((group_max w base gs - group_min w base gs) / ((2 ^ bits - 1 : ℕ) : ℚ))
      (1 / 10 ^ 7)

/-- The anchor code `q0 = rint(edge / scale)`. -/
def group_q0 (bits : ℕ) (w : ℕ → ℚ) (base gs : ℕ) : ℤ :=
  rintQ (group_edge w base gs / group_scale1 bits w base gs)

/-- The refined per-group `(scale, bias)` pair of `quantize`:
`if q0 != 0 then (edge / q0, edge) else (scale, 0)`. -/
def group_scale_bias (bits : ℕ) (w : ℕ → ℚ) (base gs : ℕ) : ℚ × ℚ :=
  if group_q0 bits w base gs ≠ 0 then
    (group_edge w base gs / (group_q0 bits w base gs : ℚ), group_edge w base gs)
  else (group_scale1 bits w base gs, 0)

/-- One element's code inside `quantize`:
`w_el = rint((w_el - bias)/scale); w_el = min(max(w_el, 0), n_bins)`,
then cast to an unsigned integer. -/
def quantize_code (bits : ℕ) (scale bias : ℚ) (v : ℚ) : ℕ :=
  (min (max (rintQ ((v - bias) / scale)) 0) ((2 ^ bits - 1 : ℕ) : ℤ)).toNat

/-- Affine dequantization `code * scale + bias`, as applied by the
matmul kernels. -/
def dequant (scale bias : ℚ) (code : ℕ) : ℚ := (code : ℚ) * scale + bias

/-- The j-loop packing one group's codes: `quantize_pack_loop … nJ` is
the `out` buffer after packs `0 … nJ-1`; pack `j` accumulates
`el_per_int = get_pack_factor bits 32` codes from
`w[w_idx + j*el_per_int + k]` and scatters them at cell `out_idx + j`
(power-of-two widths) or byte `out_idx + bytes_per_pack * j`. -/
def quantize_pack_loop (bits : ℕ) (w : ℕ → ℚ) (scale bias : ℚ)
    (w_idx out_idx : ℕ) (out : ℕ → ℕ) : ℕ → (ℕ → ℕ)
  | 0 => out
  | j + 1 =>
    write_pack bits (quantize_pack_loop bits w scale bias w_idx out_idx out j)
      (out_idx + (if bits &&& (bits - 1) = 0 then j else get_bytes_per_pack bits 8 * j))
      (pack_codes bits
        (fun k => quantize_code bits scale bias
          (w (w_idx + j * get_pack_factor bits 32 + k)))
        (get_pack_factor bits 32))

/-- The group loop of `quantize`: group `i` computes its scale/bias,
packs its `group_size` codes into `out` starting at cell
`i * int_per_group` (`int_per_group = group_size * bytes_per_pack /
el_per_int`), and stores the scale and bias at index `i`. -/
def quantize_loop (bits gs : ℕ) (w : ℕ → ℚ) (out : ℕ → ℕ)
    (scales biases : ℕ → ℚ) : ℕ → (ℕ → ℕ) × (ℕ → ℚ) × (ℕ → ℚ)
  | 0 => (out, scales, biases)
  | i + 1 =>
    let st := quantize_loop bits gs w out scales biases i
    let sb := group_scale_bias bits w (i * gs) gs
    let int_per_group := gs * get_bytes_per_pack bits 8 / get_pack_factor bits 32
    (quantize_pack_loop bits w sb.1 sb.2 (i * gs) (i * int_per_group) st.1
        (int_per_group / get_bytes_per_pack bits 8),
      upd st.2.1 i sb.1, upd st.2.2 i sb.2)

/-- `quantize(w, out, scales, biases, bits, group_size, w_size)`:
runs the group loop over `n_groups = w_size / group_size` groups. -/
def quantize (bits gs : ℕ) (w : ℕ → ℚ) (out : ℕ → ℕ)
    (scales biases : ℕ → ℚ) (w_size : ℕ) : (ℕ → ℕ) × (ℕ → ℚ) × (ℕ → ℚ) :=
  quantize_loop bits gs w out scales biases (w_size / gs)

theorem quantize_loop_sb (bits gs : ℕ) (w : ℕ → ℚ) (out : ℕ → ℕ)
    (scales biases : ℕ → ℚ) (n j : ℕ) :
    ((quantize_loop bits gs w out scales biases n).2.1 j
        = if j < n then (group_scale_bias bits w (j * gs) gs).1 else scales j) ∧
      ((quantize_loop bits gs w out scales biases n).2.2 j
        = if j < n then (group_scale_bias bits w (j * gs) gs).2 else biases j) := by
  induction n with
  | zero => simp [quantize_loop]
  | succ n ih =>
    obtain ⟨ihs, ihb⟩ := ih
    simp only [quantize_loop, upd]
    constructor
    · by_cases hj : j = n
      · subst hj
        simp
      · simp only [hj, if_false]
        rw [ihs]
        by_cases hj2 : j < n
        · simp [hj2, Nat.lt_succ_of_lt hj2]
        · have h3 : ¬ j < n + 1 := by omega
          simp [hj2, h3]
    · by_cases hj : j = n
      · subst hj
        simp
      · simp only [hj, if_false]
        rw [ihb]
        by_cases hj2 : j < n
        · simp [hj2, Nat.lt_succ_of_lt hj2]
        · have h3 : ¬ j < n + 1 := by omega
          simp [hj2, h3]

/-- C4: for every group `i`, `quantize` computes
`scale = max((w_max - w_min)/(2^bits - 1), 1e-7)`, keeps it positive
with `edge = w_min` when `|w_min| > |w_max|` (strict) and otherwise
negates it with `edge = w_max`; with `q0 = rint(edge/scale)`, if
`q0 ≠ 0` it refines `scale = edge/q0` and sets `bias = edge`, else
`bias = 0`; the results are stored at index `i` of the scales and
biases arrays. -/
theorem quantize_stores_group_scale_bias (bits gs w_size : ℕ) (w : ℕ → ℚ)
    (out : ℕ → ℕ) (scales biases : ℕ → ℚ) (i : ℕ) (hi : i < w_size / gs) :
    (quantize bits gs w out scales biases w_size).2.1 i
        = (if group_q0 bits w (i * gs) gs ≠ 0
           then group_edge w (i * gs) gs / (group_q0 bits w (i * gs) gs : ℚ)
           else group_scale1 bits w (i * gs) gs) ∧
      (quantize bits gs w out scales biases w_size).2.2 i
        = (if group_q0 bits w (i * gs) gs ≠ 0 then group_edge w (i * gs) gs
           else 0) := by
  obtain ⟨hs, hb⟩ := quantize_loop_sb bits gs w out scales biases (w_size / gs) i
  unfold quantize
  rw [hs, hb, if_pos hi, if_pos hi]
  constructor <;> simp [group_scale_bias] <;> split_ifs <;> rfl

/-- Witness for C4: `bits = 4`, `gs = 32`, constant weights. -/
theorem quantize_stores_group_scale_bias_witness :
    0 < 32 / 32 ∧
      ((quantize 4 32 (fun _ => 1) (fun _ => 0) (fun _ => 0) (fun _ => 0) 32).2.1 0
          = (if group_q0 4 (fun _ => 1) (0 * 32) 32 ≠ 0
             then group_edge (fun _ => 1) (0 * 32) 32
                / (group_q0 4 (fun _ => 1) (0 * 32) 32 : ℚ)
             else group_scale1 4 (fun _ => 1) (0 * 32) 32) ∧
        (quantize 4 32 (fun _ => 1) (fun _ => 0) (fun _ => 0) (fun _ => 0) 32).2.2 0
          = (if group_q0 4 (fun _ => 1) (0 * 32) 32 ≠ 0
             then group_edge (fun _ => 1) (0 * 32) 32 else 0)) :=
  ⟨by norm_num,
    quantize_stores_group_scale_bias 4 32 32 (fun _ => 1) (fun _ => 0)
      (fun _ => 0) (fun _ => 0) 0 (by norm_num)⟩

theorem group_scale1_ne_zero (bits : ℕ) (w : ℕ → ℚ) (base gs : ℕ) :
    group_scale1 bits w base gs ≠ 0 := by
  unfold group_scale1
  have h : (0:ℚ) < max ((group_max w base gs - group_min w base gs)
      / ((2 ^ bits - 1 : ℕ) : ℚ)) (1 / 10 ^ 7) :=
    lt_of_lt_of_le (by norm_num) (le_max_right _ _)
  split_ifs <;> intro hc <;> linarith

theorem group_edge_ne_zero (bits : ℕ) (w : ℕ → ℚ) (base gs : ℕ)
    (hq : group_q0 bits w base gs ≠ 0) : group_edge w base gs ≠ 0 := by
  intro h
  apply hq
  unfold group_q0
  rw [h, zero_div, rintQ_zero]

theorem group_scale_ne_zero (bits : ℕ) (w : ℕ → ℚ) (base gs : ℕ) :
    (group_scale_bias bits w base gs).1 ≠ 0 := by
  unfold group_scale_bias
  split_ifs with hq
  · exact div_ne_zero (group_edge_ne_zero bits w base gs hq)
      (Int.cast_ne_zero.mpr hq)
  · exact group_scale1_ne_zero bits w base gs

theorem quantize_code_self (bits : ℕ) (scale edge : ℚ) :
    quantize_code bits scale edge edge = 0 := by
  unfold quantize_code
  rw [sub_self, zero_div, rintQ_zero]
  simp

theorem quantize_code_close (bits : ℕ) (scale bias v : ℚ) (hs : scale ≠ 0)
    (h0 : 0 ≤ rintQ ((v - bias) / scale))
    (h1 : rintQ ((v - bias) / scale) ≤ ((2 ^ bits - 1 : ℕ) : ℤ)) :
    |v - dequant scale bias (quantize_code bits scale bias v)| ≤ |scale| / 2 := by
  have hcode : quantize_code bits scale bias v
      = (rintQ ((v - bias) / scale)).toNat := by
    unfold quantize_code
    rw [max_eq_left h0, min_eq_left h1]
  have hcast : ((quantize_code bits scale bias v : ℕ) : ℚ)
      = ((rintQ ((v - bias) / scale) : ℤ) : ℚ) := by
    rw [hcode]
    exact_mod_cast congrArg (fun z : ℤ => (z : ℚ)) (Int.toNat_of_nonneg h0)
  have hv : v = ((v - bias) / scale) * scale + bias := by
    rw [div_mul_cancel₀ _ hs]
    ring
  unfold dequant
  rw [hcast]
  have hdiff : v - ((rintQ ((v - bias) / scale) : ℚ) * scale + bias)
      = ((v - bias) / scale - (rintQ ((v - bias) / scale) : ℚ)) * scale := by
    nth_rewrite 1 [hv]
    ring
  rw [hdiff, abs_mul]
  calc |(v - bias) / scale - (rintQ ((v - bias) / scale) : ℚ)| * |scale|
      ≤ (1/2) * |scale| :=
        mul_le_mul_of_nonneg_right (rintQ_abs_le _) (abs_nonneg _)
    _ = |scale| / 2 := by ring

/-- C6 (amended): for every group, if the anchor code
`q0 = rint(edge/scale)` is nonzero, quantize-dequantize reproduces the
anchored extremum (the one with larger magnitude) exactly; and every
group value whose rounded code `rint((v - bias)/scale)` already lies in
`[0, 2^bits - 1]` (no clamping) is reproduced to within `|scale|/2`. -/
theorem round_trip_near_identity (bits gs : ℕ) (w : ℕ → ℚ) (base : ℕ) :
    (group_q0 bits w base gs ≠ 0 →
      dequant (group_scale_bias bits w base gs).1
          (group_scale_bias bits w base gs).2
          (quantize_code bits (group_scale_bias bits w base gs).1
            (group_scale_bias bits w base gs).2 (group_edge w base gs))
        = group_edge w base gs) ∧
    ∀ j < gs,
      0 ≤ rintQ ((w (base + j) - (group_scale_bias bits w base gs).2)
            / (group_scale_bias bits w base gs).1) →
      rintQ ((w (base + j) - (group_scale_bias bits w base gs).2)
            / (group_scale_bias bits w base gs).1) ≤ ((2 ^ bits - 1 : ℕ) : ℤ) →
      |w (base + j) - dequant (group_scale_bias bits w base gs).1
          (group_scale_bias bits w base gs).2
          (quantize_code bits (group_scale_bias bits w base gs).1
            (group_scale_bias bits w base gs).2 (w (base + j)))|
        ≤ |(group_scale_bias bits w base gs).1| / 2 := by
  constructor
  · intro hq
    have hsb : group_scale_bias bits w base gs
        = (group_edge w base gs / (group_q0 bits w base gs : ℚ),
           group_edge w base gs) := by
      unfold group_scale_bias
      rw [if_pos hq]
    rw [hsb]
    rw [quantize_code_self]
    unfold dequant
    push_cast
    ring
  · intro j _ h0 h1
    exact quantize_code_close bits _ _ _ (group_scale_ne_zero bits w base gs) h0 h1

/-- Witness for C6 (amended) on a constant group of ones,
`bits = 4`, `gs = 2`. -/
theorem round_trip_near_identity_witness :
    (group_q0 4 (fun _ => 1) 0 2 ≠ 0 ∧
      dequant (group_scale_bias 4 (fun _ => 1) 0 2).1
          (group_scale_bias 4 (fun _ => 1) 0 2).2
          (quantize_code 4 (group_scale_bias 4 (fun _ => 1) 0 2).1
            (group_scale_bias 4 (fun _ => 1) 0 2).2 (group_edge (fun _ => 1) 0 2))
        = group_edge (fun _ => 1) 0 2) ∧
    (0 ≤ rintQ (((1:ℚ) - (group_scale_bias 4 (fun _ => 1) 0 2).2)
          / (group_scale_bias 4 (fun _ => 1) 0 2).1) ∧
      |(1:ℚ) - dequant (group_scale_bias 4 (fun _ => 1) 0 2).1
          (group_scale_bias 4 (fun _ => 1) 0 2).2
          (quantize_code 4 (group_scale_bias 4 (fun _ => 1) 0 2).1
            (group_scale_bias 4 (fun _ => 1) 0 2).2 1)|
        ≤ |(group_scale_bias 4 (fun _ => 1) 0 2).1| / 2) := by
  have h := round_trip_near_identity 4 2 (fun _ => 1) 0
  have hmin : group_min (fun _ => (1:ℚ)) 0 2 = 1 := by
    norm_num [group_min, List.range_succ]
  have hmax : group_max (fun _ => (1:ℚ)) 0 2 = 1 := by
    norm_num [group_max, List.range_succ]
  have hedge : group_edge (fun _ => (1:ℚ)) 0 2 = 1 := by
    norm_num [group_edge, hmin, hmax]
  have hs1 : group_scale1 4 (fun _ => (1:ℚ)) 0 2 = -(1 / 10 ^ 7) := by
    norm_num [group_scale1, hmin, hmax]
  have hq : group_q0 4 (fun _ => (1:ℚ)) 0 2 ≠ 0 := by
    norm_num [group_q0, hedge, hs1, rintQ]
  have hsb : group_scale_bias 4 (fun _ => (1:ℚ)) 0 2
      = (1 / (group_q0 4 (fun _ => 1) 0 2 : ℚ), 1) := by
    unfold group_scale_bias
    rw [if_pos hq, hedge]
  have h0 : 0 ≤ rintQ (((1:ℚ) - (group_scale_bias 4 (fun _ => 1) 0 2).2)
      / (group_scale_bias 4 (fun _ => 1) 0 2).1) := by
    rw [hsb]
    norm_num [rintQ]
  have h1 : rintQ (((1:ℚ) - (group_scale_bias 4 (fun _ => 1) 0 2).2)
      / (group_scale_bias 4 (fun _ => 1) 0 2).1) ≤ ((2 ^ 4 - 1 : ℕ) : ℤ) := by
    rw [hsb]
    norm_num [rintQ]
  have hB := h.2 0 (by norm_num) (by simpa using h0) (by simpa using h1)
  exact ⟨⟨hq, h.1 hq⟩, h0, by simpa using hB⟩

/-- Counterexample to C6 as stated: with `bits = 4` and the group
`[1, -99/100]`, the non-extremal value `-99/100` dequantizes to `-7/8`,
an error of `23/200`, which exceeds `|scale|/2 = 1/16` (its code was
clamped); and with the constant group of `4e-8 = 1/25000000` (where
`q0 = 0`), the larger-magnitude extremum dequantizes to `0`, not to
itself. -/
theorem round_trip_near_identity_cex :
    (¬ (|(-(99/100) : ℚ)
        - dequant (group_scale_bias 4 (fun j => if j = 0 then 1 else -(99/100)) 0 2).1
            (group_scale_bias 4 (fun j => if j = 0 then 1 else -(99/100)) 0 2).2
            (quantize_code 4
              (group_scale_bias 4 (fun j => if j = 0 then 1 else -(99/100)) 0 2).1
              (group_scale_bias 4 (fun j => if j = 0 then 1 else -(99/100)) 0 2).2
              (-(99/100) : ℚ))|
        ≤ |(group_scale_bias 4 (fun j => if j = 0 then 1 else -(99/100)) 0 2).1| / 2)) ∧
    (¬ (dequant (group_scale_bias 4 (fun _ => 1/25000000) 0 2).1
          (group_scale_bias 4 (fun _ => 1/25000000) 0 2).2
          (quantize_code 4 (group_scale_bias 4 (fun _ => 1/25000000) 0 2).1
            (group_scale_bias 4 (fun _ => 1/25000000) 0 2).2
            (group_edge (fun _ => (1:ℚ)/25000000) 0 2))
        = group_edge (fun _ => (1:ℚ)/25000000) 0 2)) := by
  constructor
  · have hmin : group_min (fun j => if j = 0 then (1:ℚ) else -(99/100)) 0 2
        = -(99/100) := by
      norm_num [group_min, List.range_succ]
    have hmax : group_max (fun j => if j = 0 then (1:ℚ) else -(99/100)) 0 2
        = 1 := by
      norm_num [group_max, List.range_succ]
    have hedge : group_edge (fun j => if j = 0 then (1:ℚ) else -(99/100)) 0 2
        = 1 := by
      norm_num [group_edge, hmin, hmax, abs_of_pos, abs_of_neg]
    have hs1 : group_scale1 4 (fun j => if j = 0 then (1:ℚ) else -(99/100)) 0 2
        = -(199/1500) := by
      norm_num [group_scale1, hmin, hmax, abs_of_pos, abs_of_neg]
    have hq0 : group_q0 4 (fun j => if j = 0 then (1:ℚ) else -(99/100)) 0 2
        = -8 := by
      norm_num [group_q0, hedge, hs1, rintQ]
    have hsb : group_scale_bias 4 (fun j => if j = 0 then (1:ℚ) else -(99/100)) 0 2
        = (-(1/8), 1) := by
      norm_num [group_scale_bias, hq0, hedge]
    have hcode : quantize_code 4 (-(1/8) : ℚ) 1 (-(99/100) : ℚ) = 15 := by
      norm_num [quantize_code, rintQ]
      rfl
    rw [hsb]
    simp only [Prod.fst, Prod.snd]
    rw [hcode]
    norm_num [dequant, abs_of_pos, abs_of_neg]
  · have hmin : group_min (fun _ => (1:ℚ)/25000000) 0 2 = 1/25000000 := by
      norm_num [group_min, List.range_succ]
    have hmax : group_max (fun _ => (1:ℚ)/25000000) 0 2 = 1/25000000 := by
      norm_num [group_max, List.range_succ]
    have hedge : group_edge (fun _ => (1:ℚ)/25000000) 0 2 = 1/25000000 := by
      norm_num [group_edge, hmin, hmax]
    have hs1 : group_scale1 4 (fun _ => (1:ℚ)/25000000) 0 2 = -(1/10^7) := by
      norm_num [group_scale1, hmin, hmax]
    have hq0 : group_q0 4 (fun _ => (1:ℚ)/25000000) 0 2 = 0 := by
      norm_num [group_q0, hedge, hs1, rintQ]
    have hsb : group_scale_bias 4 (fun _ => (1:ℚ)/25000000) 0 2
        = (-(1/10^7), 0) := by
      norm_num [group_scale_bias, hq0, hs1]
    have hcode : quantize_code 4 (-(1/10^7) : ℚ) 0 ((1:ℚ)/25000000) = 0 := by
      norm_num [quantize_code, rintQ]
    rw [hsb, hedge]
    simp only [Prod.fst, Prod.snd]
    rw [hcode]
    norm_num [dequant]

/-- Innermost accumulation of `_qmm`: one pack of decoded values is
broadcast-multiplied by `xi` and accumulated into consecutive output
positions (`(*result_local++) += xi * (scale * w + bias)`). -/
def qmm_pack (xi scale bias : ℚ) (vals : List ℕ) (res : ℕ → ℚ) (r : ℕ) : ℕ → ℚ :=
  match vals with
  | [] => res
  | v :: vs =>
    qmm_pack xi scale bias vs (upd res r (res r + xi * (scale * (v:ℚ) + bias))) (r + 1)

/-- `_qmm` pack loop within one group (`for ng < packs_in_group`):
consumes packs from byte offset `w_off` (advancing `bytes_per_pack` per
pack), accumulating into positions starting at `r`. -/
def qmm_packs (bits : ℕ) (wb : ℕ → ℕ) (xi scale bias : ℚ)
    (res : ℕ → ℚ) (r w_off : ℕ) : ℕ → (ℕ → ℚ)
  | 0 => res
  | n + 1 =>
    qmm_packs bits wb xi scale bias
      (qmm_pack xi scale bias (decode_pack bits wb w_off) res r)
      (r + get_pack_factor bits 8) (w_off + get_bytes_per_pack bits 8) n

/-- `_qmm` group loop along the output row (`for n += group_size`):
each group reads one scale and bias and `group_size / pack_factor`
packs. -/
def qmm_groups (bits gs : ℕ) (wb : ℕ → ℕ) (scales biases : ℕ → ℚ) (xi : ℚ)
    (res : ℕ → ℚ) (r w_off s : ℕ) : ℕ → (ℕ → ℚ)
  | 0 => res
  | g + 1 =>
    qmm_groups bits gs wb scales biases xi
      (qmm_packs bits wb xi (scales s) (biases s) res r w_off
        (gs / get_pack_factor bits 8))
      (r + gs)
      (w_off + gs / get_pack_factor bits 8 * get_bytes_per_pack bits 8)
      (s + 1) g

/-- `_qmm` k loop: each `k` broadcasts `xi = *x++` across the row; the
weight and scale/bias pointers keep advancing across `k`. -/
def qmm_k (bits gs N : ℕ) (wb : ℕ → ℕ) (scales biases x : ℕ → ℚ)
    (res : ℕ → ℚ) (r_base x_off w_off s : ℕ) : ℕ → (ℕ → ℚ)
  | 0 => res
  | k + 1 =>
    qmm_k bits gs N wb scales biases x
      (qmm_groups bits gs wb scales biases (x x_off) res r_base w_off s (N / gs))
      r_base (x_off + 1)
      (w_off + N / gs * (gs / get_pack_factor bits 8 * get_bytes_per_pack bits 8))
      (s + N / gs) k

/-- `std::fill(result, result + N, 0)`. -/
def zero_fill (res : ℕ → ℚ) (r : ℕ) : ℕ → (ℕ → ℚ)
  | 0 => res
  | n + 1 => zero_fill (upd res r 0) (r + 1) n

/-- `_qmm` row loop over `m`: zero the output row, run the k loop;
`x` advances by `K` and `result` by `N` per row, while the weight and
scale/bias pointers reset to the start. -/
def qmm_m (bits gs N K : ℕ) (wb : ℕ → ℕ) (scales biases x : ℕ → ℚ)
    (res : ℕ → ℚ) (r_base x_base : ℕ) : ℕ → (ℕ → ℚ)
  | 0 => res
  | m + 1 =>
    qmm_m bits gs N K wb scales biases x
      (qmm_k bits gs N wb scales biases x (zero_fill res r_base N) r_base x_base 0 0 K)
      (r_base + N) (x_base + K) m

/-- `_qmm<T, bits, group_size>(result, x, w, scales, biases, M, N, K)`:
the non-transposed reference kernel, writing the `M × N` output block
starting at `r_base`. -/
def qmm (bits gs : ℕ) (wb : ℕ → ℕ) (scales biases x : ℕ → ℚ)
    (res : ℕ → ℚ) (r_base : ℕ) (M N K : ℕ) : ℕ → ℚ :=
  qmm_m bits gs N K wb scales biases x res r_base 0 M

/-- The decoded code at in-stream position `t` relative to byte offset
`w_off` (pack `t / pack_factor`, slot `t % pack_factor`). -/
def stream_code (bits : ℕ) (wb : ℕ → ℕ) (w_off t : ℕ) : ℕ :=
  (decode_pack bits wb
      (w_off + t / get_pack_factor bits 8 * get_bytes_per_pack bits 8)).getD
    (t % get_pack_factor bits 8) 0

theorem stream_code_zero (bits : ℕ) (wb : ℕ → ℕ) (t : ℕ) :
    stream_code bits wb 0 t = codeAt bits wb t := by
  unfold stream_code codeAt
  rw [Nat.zero_add]

theorem decode_pack_length (bits : ℕ) (wb : ℕ → ℕ) (off : ℕ) :
    (decode_pack bits wb off).length = get_pack_factor bits 8 := by
  unfold decode_pack
  split_ifs with h
  · rcases h with rfl | rfl | rfl <;> rfl
  · simp [shift_mask_decode]

theorem qmm_pack_apply (xi scale bias : ℚ) (vals : List ℕ) (res : ℕ → ℚ) (r j : ℕ) :
    qmm_pack xi scale bias vals res r j
      = if r ≤ j ∧ j < r + vals.length then
          res j + xi * (scale * ((vals.getD (j - r) 0 : ℕ) : ℚ) + bias)
        else res j := by
  induction vals generalizing res r with
  | nil =>
    show res j = _
    rw [if_neg (by simp only [List.length_nil]; omega)]
  | cons v vs ih =>
    show qmm_pack xi scale bias vs
        (upd res r (res r + xi * (scale * (v:ℚ) + bias))) (r+1) j = _
    rw [ih]
    by_cases hj : j = r
    · have hc1 : ¬ (r + 1 ≤ j ∧ j < r + 1 + vs.length) := by omega
      have hc2 : r ≤ j ∧ j < r + (v :: vs).length := by
        simp only [List.length_cons]
        omega
      have h0 : j - r = 0 := by omega
      rw [if_neg hc1, if_pos hc2, h0]
      simp [upd, hj]
    · have hupd : upd res r (res r + xi * (scale * (v:ℚ) + bias)) j = res j := by
        simp [upd, hj]
      by_cases hc : r + 1 ≤ j ∧ j < r + 1 + vs.length
      · have hc2 : r ≤ j ∧ j < r + (v :: vs).length := by
          simp only [List.length_cons]
          omega
        rw [if_pos hc, if_pos hc2, hupd]
        obtain ⟨u, hu⟩ : ∃ u, j - r = u + 1 := ⟨j - r - 1, by omega⟩
        have hu2 : j - (r + 1) = u := by omega
        rw [hu, hu2]
        simp [List.getD]
      · have hc2 : ¬ (r ≤ j ∧ j < r + (v :: vs).length) := by
          simp only [List.length_cons]
          omega
        rw [if_neg hc, if_neg hc2, hupd]

theorem zero_fill_apply (res : ℕ → ℚ) (r n j : ℕ) :
    zero_fill res r n j = if r ≤ j ∧ j < r + n then 0 else res j := by
  induction n generalizing res r with
  | zero =>
    show res j = _
    rw [if_neg (by omega)]
  | succ n ih =>
    show zero_fill (upd res r 0) (r + 1) n j = _
    rw [ih]
    by_cases hj : j = r
    · have hc1 : ¬ (r + 1 ≤ j ∧ j < r + 1 + n) := by omega
      have hc2 : r ≤ j ∧ j < r + (n + 1) := by omega
      rw [if_neg hc1, if_pos hc2]
      simp [upd, hj]
    · have hupd : upd res r 0 j = res j := by simp [upd, hj]
      by_cases hc : r + 1 ≤ j ∧ j < r + 1 + n
      · have hc2 : j < r + (n + 1) := by omega
        rw [if_pos hc, if_pos ⟨by omega, hc2⟩]
      · have hc2 : ¬ (r ≤ j ∧ j < r + (n + 1)) := by omega
        rw [if_neg hc, if_neg hc2, hupd]

theorem stream_code_shift (bits : ℕ) (wb : ℕ → ℕ) (w_off t c : ℕ)
    (hpf : 0 < get_pack_factor bits 8) :
    stream_code bits wb (w_off + c * get_bytes_per_pack bits 8) t
      = stream_code bits wb w_off (c * get_pack_factor bits 8 + t) := by
  unfold stream_code
  have h1 : (c * get_pack_factor bits 8 + t) / get_pack_factor bits 8
      = c + t / get_pack_factor bits 8 := by
    rw [Nat.add_comm, Nat.add_mul_div_right _ _ hpf]
    ring
  have h2 : (c * get_pack_factor bits 8 + t) % get_pack_factor bits 8
      = t % get_pack_factor bits 8 := by
    rw [Nat.add_comm, Nat.add_mul_mod_self_right]
  rw [h1, h2]
  have h3 : w_off + c * get_bytes_per_pack bits 8
        + t / get_pack_factor bits 8 * get_bytes_per_pack bits 8
      = w_off + (c + t / get_pack_factor bits 8) * get_bytes_per_pack bits 8 := by
    ring
  rw [h3]

theorem qmm_packs_apply (bits : ℕ) (wb : ℕ → ℕ) (xi scale bias : ℚ)
    (nP : ℕ) (res : ℕ → ℚ) (r w_off j : ℕ)
    (hpf : 0 < get_pack_factor bits 8) :
    qmm_packs bits wb xi scale bias res r w_off nP j
      = if r ≤ j ∧ j < r + nP * get_pack_factor bits 8 then
          res j + xi * (scale * (stream_code bits wb w_off (j - r) : ℚ) + bias)
        else res j := by
  induction nP generalizing res r w_off with
  | zero =>
    show res j = _
    rw [if_neg (by omega)]
  | succ n ih =>
    show qmm_packs bits wb xi scale bias
        (qmm_pack xi scale bias (decode_pack bits wb w_off) res r)
        (r + get_pack_factor bits 8) (w_off + get_bytes_per_pack bits 8) n j = _
    rw [ih, qmm_pack_apply, decode_pack_length]
    have hmul : (n + 1) * get_pack_factor bits 8
        = n * get_pack_factor bits 8 + get_pack_factor bits 8 := by ring
    rcases Nat.lt_or_ge j r with hjr | hjr
    · rw [if_neg (by omega), if_neg (by omega), if_neg (by omega)]
    · rcases Nat.lt_or_ge j (r + get_pack_factor bits 8) with hj2 | hj2
      · have hlt : j - r < get_pack_factor bits 8 := by omega
        have hsc : stream_code bits wb w_off (j - r)
            = (decode_pack bits wb w_off).getD (j - r) 0 := by
          unfold stream_code
          rw [Nat.div_eq_of_lt hlt, Nat.mod_eq_of_lt hlt, Nat.zero_mul,
            Nat.add_zero]
        rw [if_neg (by omega), if_pos ⟨hjr, hj2⟩, if_pos ⟨hjr, by omega⟩, hsc]
      · have hsc := stream_code_shift bits wb w_off (j - (r + get_pack_factor bits 8)) 1 hpf
        simp only [one_mul] at hsc
        have harg : get_pack_factor bits 8 + (j - (r + get_pack_factor bits 8))
            = j - r := by omega
        rw [harg] at hsc
        rcases Nat.lt_or_ge j (r + get_pack_factor bits 8 + n * get_pack_factor bits 8)
          with hj3 | hj3
        · rw [if_pos ⟨hj2, hj3⟩, if_neg (by omega), if_pos ⟨hjr, by omega⟩, hsc]
        · rw [if_neg (by omega), if_neg (by omega), if_neg (by omega)]

theorem qmm_groups_apply (bits gs : ℕ) (wb : ℕ → ℕ) (scales biases : ℕ → ℚ)
    (xi : ℚ) (nG : ℕ) (res : ℕ → ℚ) (r w_off s j : ℕ)
    (hpf : 0 < get_pack_factor bits 8)
    (hdvd : get_pack_factor bits 8 ∣ gs) (hgs : 0 < gs) :
    qmm_groups bits gs wb scales biases xi res r w_off s nG j
      = if r ≤ j ∧ j < r + nG * gs then
          res j + xi * (scales (s + (j - r) / gs)
            * (stream_code bits wb w_off (j - r) : ℚ) + biases (s + (j - r) / gs))
        else res j := by
  induction nG generalizing res r w_off s with
  | zero =>
    show res j = _
    rw [if_neg (by omega)]
  | succ g ih =>
    show qmm_groups bits gs wb scales biases xi
        (qmm_packs bits wb xi (scales s) (biases s) res r w_off
          (gs / get_pack_factor bits 8))
        (r + gs) (w_off + gs / get_pack_factor bits 8 * get_bytes_per_pack bits 8)
        (s + 1) g j = _
    rw [ih, qmm_packs_apply _ _ _ _ _ _ _ _ _ _ hpf]
    have hpig : gs / get_pack_factor bits 8 * get_pack_factor bits 8 = gs :=
      Nat.div_mul_cancel hdvd
    rw [hpig]
    have hmul : (g + 1) * gs = g * gs + gs := by ring
    rcases Nat.lt_or_ge j r with h1 | h1
    · rw [if_neg (by omega), if_neg (by omega), if_neg (by omega)]
    · rcases Nat.lt_or_ge j (r + gs) with h2 | h2
      · have hdiv : (j - r) / gs = 0 := Nat.div_eq_of_lt (by omega)
        rw [if_neg (by omega), if_pos ⟨h1, h2⟩, if_pos ⟨h1, by omega⟩, hdiv,
          Nat.add_zero]
      · have hsc := stream_code_shift bits wb w_off (j - (r + gs))
          (gs / get_pack_factor bits 8) hpf
        rw [hpig] at hsc
        have harg : gs + (j - (r + gs)) = j - r := by omega
        rw [harg] at hsc
        have hdiv : s + 1 + (j - (r + gs)) / gs = s + (j - r) / gs := by
          obtain ⟨u, hu⟩ : ∃ u, j - r = gs + u := ⟨j - r - gs, by omega⟩
          have hu2 : j - (r + gs) = u := by omega
          rw [hu2, hu, Nat.add_comm gs u, Nat.add_div_right _ hgs]
          ring
        rcases Nat.lt_or_ge j (r + gs + g * gs) with h3 | h3
        · rw [if_pos ⟨h2, h3⟩, if_neg (by omega), if_pos ⟨h1, by omega⟩, hsc, hdiv]
        · rw [if_neg (by omega), if_neg (by omega), if_neg (by omega)]

theorem qmm_k_apply (bits gs N : ℕ) (wb : ℕ → ℕ) (scales biases x : ℕ → ℚ)
    (nK : ℕ) (res : ℕ → ℚ) (r_base x_off w_off s j : ℕ)
    (hpf : 0 < get_pack_factor bits 8)
    (hdvd : get_pack_factor bits 8 ∣ gs) (hgs : 0 < gs) (hgsN : gs ∣ N) :
    qmm_k bits gs N wb scales biases x res r_base x_off w_off s nK j
      = if r_base ≤ j ∧ j < r_base + N then
          res j + ∑ k ∈ Finset.range nK, x (x_off + k)
            * (scales (s + k * (N / gs) + (j - r_base) / gs)
              * (stream_code bits wb
                  (w_off + k * (N / gs * (gs / get_pack_factor bits 8
                    * get_bytes_per_pack bits 8))) (j - r_base) : ℚ)
              + biases (s + k * (N / gs) + (j - r_base) / gs))
        else res j := by
  induction nK generalizing res x_off w_off s with
  | zero =>
    show res j = _
    by_cases hc : r_base ≤ j ∧ j < r_base + N
    · rw [if_pos hc]
      simp
    · rw [if_neg hc]
  | succ k ih =>
    show qmm_k bits gs N wb scales biases x
        (qmm_groups bits gs wb scales biases (x x_off) res r_base w_off s (N / gs))
        r_base (x_off + 1)
        (w_off + N / gs * (gs / get_pack_factor bits 8 * get_bytes_per_pack bits 8))
        (s + N / gs) k j = _
    rw [ih, qmm_groups_apply _ _ _ _ _ _ _ _ _ _ _ _ hpf hdvd hgs]
    have hN : N / gs * gs = N := Nat.div_mul_cancel hgsN
    rw [hN]
    by_cases hc : r_base ≤ j ∧ j < r_base + N
    · rw [if_pos hc, if_pos hc, if_pos hc, Finset.sum_range_succ']
      have hcongr : ∀ k' ∈ Finset.range k,
          x (x_off + 1 + k')
            * (scales (s + N / gs + k' * (N / gs) + (j - r_base) / gs)
              * (stream_code bits wb
                  (w_off + N / gs * (gs / get_pack_factor bits 8
                      * get_bytes_per_pack bits 8)
                    + k' * (N / gs * (gs / get_pack_factor bits 8
                      * get_bytes_per_pack bits 8))) (j - r_base) : ℚ)
              + biases (s + N / gs + k' * (N / gs) + (j - r_base) / gs))
          = x (x_off + (k' + 1))
            * (scales (s + (k' + 1) * (N / gs) + (j - r_base) / gs)
              * (stream_code bits wb
                  (w_off + (k' + 1) * (N / gs * (gs / get_pack_factor bits 8
                    * get_bytes_per_pack bits 8))) (j - r_base) : ℚ)
              + biases (s + (k' + 1) * (N / gs) + (j - r_base) / gs)) := by
        intro k' _
        have e1 : x_off + 1 + k' = x_off + (k' + 1) := by ring
        have e2 : s + N / gs + k' * (N / gs) + (j - r_base) / gs
            = s + (k' + 1) * (N / gs) + (j - r_base) / gs := by ring
        have e3 : w_off + N / gs * (gs / get_pack_factor bits 8
              * get_bytes_per_pack bits 8)
            + k' * (N / gs * (gs / get_pack_factor bits 8
              * get_bytes_per_pack bits 8))
            = w_off + (k' + 1) * (N / gs * (gs / get_pack_factor bits 8
              * get_bytes_per_pack bits 8)) := by ring
        rw [e1, e2, e3]
      rw [Finset.sum_congr rfl hcongr]
      have e4 : x_off + 0 = x_off := by ring
      have e5 : s + 0 * (N / gs) + (j - r_base) / gs = s + (j - r_base) / gs := by
        ring
      have e6 : w_off + 0 * (N / gs * (gs / get_pack_factor bits 8
          * get_bytes_per_pack bits 8)) = w_off := by ring
      rw [e4, e5, e6]
      ring
    · rw [if_neg hc, if_neg hc, if_neg hc]

theorem qmm_m_apply (bits gs N K : ℕ) (wb : ℕ → ℕ) (scales biases x : ℕ → ℚ)
    (nM : ℕ) (res : ℕ → ℚ) (r_base x_base j : ℕ)
    (hpf : 0 < get_pack_factor bits 8)
    (hdvd : get_pack_factor bits 8 ∣ gs) (hgs : 0 < gs) (hgsN : gs ∣ N)
    (hN : 0 < N) :
    qmm_m bits gs N K wb scales biases x res r_base x_base nM j
      = if r_base ≤ j ∧ j < r_base + nM * N then
          ∑ k ∈ Finset.range K, x (x_base + (j - r_base) / N * K + k)
            * (scales (k * (N / gs) + (j - r_base) % N / gs)
              * (stream_code bits wb
                  (k * (N / gs * (gs / get_pack_factor bits 8
                    * get_bytes_per_pack bits 8))) ((j - r_base) % N) : ℚ)
              + biases (k * (N / gs) + (j - r_base) % N / gs))
        else res j := by
  induction nM generalizing res r_base x_base with
  | zero =>
    show res j = _
    rw [if_neg (by omega)]
  | succ m ih =>
    show qmm_m bits gs N K wb scales biases x
        (qmm_k bits gs N wb scales biases x (zero_fill res r_base N) r_base
          x_base 0 0 K)
        (r_base + N) (x_base + K) m j = _
    rw [ih, qmm_k_apply _ _ _ _ _ _ _ _ _ _ _ _ _ _ hpf hdvd hgs hgsN,
      zero_fill_apply]
    have hmul : (m + 1) * N = m * N + N := by ring
    rcases Nat.lt_or_ge j r_base with h1 | h1
    · rw [if_neg (by omega), if_neg (by omega), if_neg (by omega),
        if_neg (by omega)]
    · rcases Nat.lt_or_ge j (r_base + N) with h2 | h2
      · have hdivN : (j - r_base) / N = 0 := Nat.div_eq_of_lt (by omega)
        have hmodN : (j - r_base) % N = j - r_base := Nat.mod_eq_of_lt (by omega)
        rw [if_neg (by omega), if_pos ⟨h1, h2⟩, if_pos ⟨h1, h2⟩,
          if_pos ⟨h1, by omega⟩, hdivN, hmodN, zero_add]
        refine Finset.sum_congr rfl (fun k _ => ?_)
        have e1 : (0:ℕ) + k * (N / gs) + (j - r_base) / gs
            = k * (N / gs) + (j - r_base) / gs := by ring
        have e2 : (0:ℕ) + k * (N / gs * (gs / get_pack_factor bits 8
            * get_bytes_per_pack bits 8))
            = k * (N / gs * (gs / get_pack_factor bits 8
              * get_bytes_per_pack bits 8)) := by ring
        have e3 : x_base + 0 * K + k = x_base + k := by ring
        rw [e1, e2, e3]
      · have hq : (j - r_base) / N = (j - (r_base + N)) / N + 1 := by
          obtain ⟨u, hu⟩ : ∃ u, j - r_base = N + u := ⟨j - r_base - N, by omega⟩
          have hu2 : j - (r_base + N) = u := by omega
          rw [hu, hu2, Nat.add_comm N u, Nat.add_div_right _ hN]
        have hm : (j - (r_base + N)) % N = (j - r_base) % N := by
          obtain ⟨u, hu⟩ : ∃ u, j - r_base = N + u := ⟨j - r_base - N, by omega⟩
          have hu2 : j - (r_base + N) = u := by omega
          rw [hu, hu2, Nat.add_comm N u, Nat.add_mod_right]
        rcases Nat.lt_or_ge j (r_base + N + m * N) with h3 | h3
        · rw [if_pos ⟨h2, h3⟩, if_pos ⟨h1, by omega⟩, hm, hq]
          exact Finset.sum_congr rfl (fun k _ => by
            have e : x_base + K + (j - (r_base + N)) / N * K + k
                = x_base + ((j - (r_base + N)) / N + 1) * K + k := by ring
            rw [e])
        · rw [if_neg (by omega), if_neg (by omega), if_neg (by omega),
            if_neg (by omega)]

theorem stream_code_row (bits gs N k n : ℕ) (wb : ℕ → ℕ)
    (hpf : 0 < get_pack_factor bits 8)
    (hdvd : get_pack_factor bits 8 ∣ gs) (hgs : 0 < gs) (hgsN : gs ∣ N) :
    stream_code bits wb
        (k * (N / gs * (gs / get_pack_factor bits 8 * get_bytes_per_pack bits 8))) n
      = codeAt bits wb (k * N + n) := by
  obtain ⟨pig, hpig⟩ := hdvd
  obtain ⟨ng, hng⟩ := hgsN
  have h1 : gs / get_pack_factor bits 8 = pig := by
    rw [hpig, Nat.mul_div_cancel_left _ hpf]
  have h2 : N / gs = ng := by
    rw [hng, Nat.mul_div_cancel_left _ hgs]
  have h3 : k * (N / gs * (gs / get_pack_factor bits 8 * get_bytes_per_pack bits 8))
      = 0 + (k * (ng * pig)) * get_bytes_per_pack bits 8 := by
    rw [h1, h2]
    ring
  rw [h3, stream_code_shift _ _ _ _ _ hpf, stream_code_zero]
  congr 1
  rw [hng, hpig]
  ring

theorem qmm_apply (bits gs : ℕ) (wb : ℕ → ℕ) (scales biases x : ℕ → ℚ)
    (res : ℕ → ℚ) (r_base M N K m n : ℕ)
    (hpf : 0 < get_pack_factor bits 8) (hdvd : get_pack_factor bits 8 ∣ gs)
    (hgs : 0 < gs) (hgsN : gs ∣ N) (hm : m < M) (hn : n < N) :
    qmm bits gs wb scales biases x res r_base M N K (r_base + (m * N + n))
      = ∑ k ∈ Finset.range K, x (m * K + k)
        * (scales (k * (N / gs) + n / gs)
          * (codeAt bits wb (k * N + n) : ℚ)
          + biases (k * (N / gs) + n / gs)) := by
  have hN : 0 < N := by omega
  unfold qmm
  rw [qmm_m_apply _ _ _ _ _ _ _ _ _ _ _ _ _ hpf hdvd hgs hgsN hN]
  have hmul : (m + 1) * N = m * N + N := by ring
  have hle : (m + 1) * N ≤ M * N := Nat.mul_le_mul_right N hm
  have hc : r_base ≤ r_base + (m * N + n)
      ∧ r_base + (m * N + n) < r_base + M * N := ⟨by omega, by omega⟩
  rw [if_pos hc]
  have hsub : r_base + (m * N + n) - r_base = m * N + n := by omega
  have hdiv : (m * N + n) / N = m := by
    rw [Nat.mul_comm m N, Nat.mul_add_div hN]
    simp [Nat.div_eq_of_lt hn]
  have hmod : (m * N + n) % N = n := by
    rw [Nat.mul_comm m N, Nat.mul_add_mod]
    exact Nat.mod_eq_of_lt hn
  rw [hsub, hdiv, hmod]
  refine Finset.sum_congr rfl (fun k _ => ?_)
  rw [stream_code_row _ _ _ _ _ _ hpf hdvd hgs hgsN]
  have e1 : (0:ℕ) + m * K + k = m * K + k := by ring
  rw [e1]

/-- Innermost accumulation of `_qmm_t`: one pack's dot-product
contribution (`sum += x_local[p] * (scale * w + bias)` with the `x`
pointer advancing). -/
def qmm_t_pack (x : ℕ → ℚ) (x_off : ℕ) (scale bias : ℚ) (vals : List ℕ)
    (sum : ℚ) : ℚ :=
  match vals with
  | [] => sum
  | v :: vs =>
    qmm_t_pack x (x_off + 1) scale bias vs (sum + x x_off * (scale * (v:ℚ) + bias))

/-- `_qmm_t` pack loop within one group (`for kw < packs_in_group`). -/
def qmm_t_packs (bits : ℕ) (wb : ℕ → ℕ) (x : ℕ → ℚ) (scale bias : ℚ)
    (sum : ℚ) (x_off w_off : ℕ) : ℕ → ℚ
  | 0 => sum
  | n + 1 =>
    qmm_t_packs bits wb x scale bias
      (qmm_t_pack x x_off scale bias (decode_pack bits wb w_off) sum)
      (x_off + get_pack_factor bits 8) (w_off + get_bytes_per_pack bits 8) n

/-- `_qmm_t` group loop along K (`for k += group_size`), one scale and
bias per group. -/
def qmm_t_groups (bits gs : ℕ) (wb : ℕ → ℕ) (scales biases x : ℕ → ℚ)
    (sum : ℚ) (x_off w_off s : ℕ) : ℕ → ℚ
  | 0 => sum
  | g + 1 =>
    qmm_t_groups bits gs wb scales biases x
      (qmm_t_packs bits wb x (scales s) (biases s) sum x_off w_off
        (gs / get_pack_factor bits 8))
      (x_off + gs)
      (w_off + gs / get_pack_factor bits 8 * get_bytes_per_pack bits 8)
      (s + 1) g

/-- `_qmm_t` n loop: a fresh `sum` per output scalar, stored with
`*result++ = sum`; weight and scale/bias pointers keep advancing. -/
def qmm_t_n (bits gs K : ℕ) (wb : ℕ → ℕ) (scales biases x : ℕ → ℚ)
    (res : ℕ → ℚ) (r x_base w_off s : ℕ) : ℕ → (ℕ → ℚ)
  | 0 => res
  | n + 1 =>
    qmm_t_n bits gs K wb scales biases x
      (upd res r (qmm_t_groups bits gs wb scales biases x 0 x_base w_off s (K / gs)))
      (r + 1) x_base
      (w_off + K / gs * (gs / get_pack_factor bits 8 * get_bytes_per_pack bits 8))
      (s + K / gs) n

/-- `_qmm_t` row loop over `m`: `x += K` per row, the weight and
scale/bias pointers reset, `result` keeps advancing. -/
def qmm_t_m (bits gs N K : ℕ) (wb : ℕ → ℕ) (scales biases x : ℕ → ℚ)
    (res : ℕ → ℚ) (r x_base : ℕ) : ℕ → (ℕ → ℚ)
  | 0 => res
  | m + 1 =>
    qmm_t_m bits gs N K wb scales biases x
      (qmm_t_n bits gs K wb scales biases x res r x_base 0 0 N)
      (r + N) (x_base + K) m

/-- `_qmm_t<T, bits, group_size>(result, x, w, scales, biases, M, N, K)`:
the transposed reference kernel, writing the `M × N` output block
starting at `r_base`. -/
def qmm_t (bits gs : ℕ) (wb : ℕ → ℕ) (scales biases x : ℕ → ℚ)
    (res : ℕ → ℚ) (r_base : ℕ) (M N K : ℕ) : ℕ → ℚ :=
  qmm_t_m bits gs N K wb scales biases x res r_base 0 M

theorem qmm_t_pack_sum (x : ℕ → ℚ) (x_off : ℕ) (scale bias : ℚ)
    (vals : List ℕ) (sum : ℚ) :
    qmm_t_pack x x_off scale bias vals sum
      = sum + ∑ p ∈ Finset.range vals.length,
          x (x_off + p) * (scale * ((vals.getD p 0 : ℕ) : ℚ) + bias) := by
  induction vals generalizing x_off sum with
  | nil => simp [qmm_t_pack]
  | cons v vs ih =>
    show qmm_t_pack x (x_off + 1) scale bias vs
        (sum + x x_off * (scale * (v:ℚ) + bias)) = _
    rw [ih]
    simp only [List.length_cons]
    rw [Finset.sum_range_succ']
    simp only [List.getD_cons_succ, List.getD_cons_zero, Nat.add_zero]
    have hc : ∀ p ∈ Finset.range vs.length,
        x (x_off + 1 + p) * (scale * ((vs.getD p 0 : ℕ) : ℚ) + bias)
          = x (x_off + (p + 1)) * (scale * ((vs.getD p 0 : ℕ) : ℚ) + bias) := by
      intro p _
      have e : x_off + 1 + p = x_off + (p + 1) := by ring
      rw [e]
    rw [Finset.sum_congr rfl hc]
    ring

theorem qmm_t_packs_sum (bits : ℕ) (wb : ℕ → ℕ) (x : ℕ → ℚ)
    (scale bias : ℚ) (nP : ℕ) (sum : ℚ) (x_off w_off : ℕ)
    (hpf : 0 < get_pack_factor bits 8) :
    qmm_t_packs bits wb x scale bias sum x_off w_off nP
      = sum + ∑ t ∈ Finset.range (nP * get_pack_factor bits 8),
          x (x_off + t)
            * (scale * (stream_code bits wb w_off t : ℚ) + bias) := by
  induction nP generalizing sum x_off w_off with
  | zero => simp [qmm_t_packs]
  | succ n ih =>
    show qmm_t_packs bits wb x scale bias
        (qmm_t_pack x x_off scale bias (decode_pack bits wb w_off) sum)
        (x_off + get_pack_factor bits 8) (w_off + get_bytes_per_pack bits 8) n = _
    rw [ih, qmm_t_pack_sum, decode_pack_length]
    have hsplit : (n + 1) * get_pack_factor bits 8
        = get_pack_factor bits 8 + n * get_pack_factor bits 8 := by ring
    rw [hsplit, Finset.sum_range_add]
    have hc1 : ∀ p ∈ Finset.range (get_pack_factor bits 8),
        x (x_off + p)
            * (scale * ((decode_pack bits wb w_off).getD p 0 : ℚ) + bias)
          = x (x_off + p) * (scale * (stream_code bits wb w_off p : ℚ) + bias) := by
      intro p hp
      rw [Finset.mem_range] at hp
      unfold stream_code
      rw [Nat.div_eq_of_lt hp, Nat.mod_eq_of_lt hp, Nat.zero_mul, Nat.add_zero]
    have hc2 : ∀ t ∈ Finset.range (n * get_pack_factor bits 8),
        x (x_off + get_pack_factor bits 8 + t)
            * (scale * (stream_code bits wb (w_off + get_bytes_per_pack bits 8) t : ℚ)
              + bias)
          = x (x_off + (get_pack_factor bits 8 + t))
            * (scale * (stream_code bits wb w_off (get_pack_factor bits 8 + t) : ℚ)
              + bias) := by
      intro t _
      have hsc := stream_code_shift bits wb w_off t 1 hpf
      simp only [one_mul] at hsc
      have e : x_off + get_pack_factor bits 8 + t
          = x_off + (get_pack_factor bits 8 + t) := by ring
      rw [hsc, e]
    rw [Finset.sum_congr rfl hc1, Finset.sum_congr rfl hc2]
    ring

theorem qmm_t_groups_sum (bits gs : ℕ) (wb : ℕ → ℕ) (scales biases x : ℕ → ℚ)
    (nG : ℕ) (sum : ℚ) (x_off w_off s : ℕ)
    (hpf : 0 < get_pack_factor bits 8) (hdvd : get_pack_factor bits 8 ∣ gs)
    (hgs : 0 < gs) :
    qmm_t_groups bits gs wb scales biases x sum x_off w_off s nG
      = sum + ∑ t ∈ Finset.range (nG * gs),
          x (x_off + t) * (scales (s + t / gs)
            * (stream_code bits wb w_off t : ℚ) + biases (s + t / gs)) := by
  induction nG generalizing sum x_off w_off s with
  | zero => simp [qmm_t_groups]
  | succ g ih =>
    show qmm_t_groups bits gs wb scales biases x
        (qmm_t_packs bits wb x (scales s) (biases s) sum x_off w_off
          (gs / get_pack_factor bits 8))
        (x_off + gs)
        (w_off + gs / get_pack_factor bits 8 * get_bytes_per_pack bits 8)
        (s + 1) g = _
    rw [ih, qmm_t_packs_sum _ _ _ _ _ _ _ _ _ hpf]
    have hpig : gs / get_pack_factor bits 8 * get_pack_factor bits 8 = gs :=
      Nat.div_mul_cancel hdvd
    rw [hpig]
    have hsplit : (g + 1) * gs = gs + g * gs := by ring
    rw [hsplit, Finset.sum_range_add]
    have hc1 : ∀ t ∈ Finset.range gs,
        x (x_off + t) * (scales s * (stream_code bits wb w_off t : ℚ) + biases s)
          = x (x_off + t) * (scales (s + t / gs)
            * (stream_code bits wb w_off t : ℚ) + biases (s + t / gs)) := by
      intro t ht
      rw [Finset.mem_range] at ht
      rw [Nat.div_eq_of_lt ht, Nat.add_zero]
    have hc2 : ∀ t ∈ Finset.range (g * gs),
        x (x_off + gs + t) * (scales (s + 1 + t / gs)
            * (stream_code bits wb
                (w_off + gs / get_pack_factor bits 8 * get_bytes_per_pack bits 8)
                t : ℚ)
            + biases (s + 1 + t / gs))
          = x (x_off + (gs + t)) * (scales (s + (gs + t) / gs)
            * (stream_code bits wb w_off (gs + t) : ℚ)
            + biases (s + (gs + t) / gs)) := by
      intro t _
      have hsc := stream_code_shift bits wb w_off t (gs / get_pack_factor bits 8) hpf
      rw [hpig] at hsc
      have hdiv : (gs + t) / gs = 1 + t / gs := by
        rw [Nat.add_comm gs t, Nat.add_div_right _ hgs]
        ring
      have e1 : x_off + gs + t = x_off + (gs + t) := by ring
      have e2 : s + 1 + t / gs = s + (1 + t / gs) := by ring
      rw [hdiv, hsc, e1, e2]
    rw [Finset.sum_congr rfl hc1, Finset.sum_congr rfl hc2]
    ring

theorem qmm_t_n_apply (bits gs K : ℕ) (wb : ℕ → ℕ) (scales biases x : ℕ → ℚ)
    (nN : ℕ) (res : ℕ → ℚ) (r x_base w_off s j : ℕ)
    (hpf : 0 < get_pack_factor bits 8) (hdvd : get_pack_factor bits 8 ∣ gs)
    (hgs : 0 < gs) (hgsK : gs ∣ K) :
    qmm_t_n bits gs K wb scales biases x res r x_base w_off s nN j
      = if r ≤ j ∧ j < r + nN then
          ∑ u ∈ Finset.range K, x (x_base + u)
            * (scales (s + (j - r) * (K / gs) + u / gs)
              * (stream_code bits wb
                  (w_off + (j - r) * (K / gs * (gs / get_pack_factor bits 8
                    * get_bytes_per_pack bits 8))) u : ℚ)
              + biases (s + (j - r) * (K / gs) + u / gs))
        else res j := by
  induction nN generalizing res r w_off s with
  | zero =>
    show res j = _
    rw [if_neg (by omega)]
  | succ n ih =>
    show qmm_t_n bits gs K wb scales biases x
        (upd res r
          (qmm_t_groups bits gs wb scales biases x 0 x_base w_off s (K / gs)))
        (r + 1) x_base
        (w_off + K / gs * (gs / get_pack_factor bits 8 * get_bytes_per_pack bits 8))
        (s + K / gs) n j = _
    rw [ih]
    have hK : K / gs * gs = K := Nat.div_mul_cancel hgsK
    by_cases hj : j = r
    · rw [if_neg (by omega), if_pos (by omega)]
      have hup : upd res r
          (qmm_t_groups bits gs wb scales biases x 0 x_base w_off s (K / gs)) j
          = qmm_t_groups bits gs wb scales biases x 0 x_base w_off s (K / gs) := by
        simp [upd, hj]
      rw [hup, qmm_t_groups_sum _ _ _ _ _ _ _ _ _ _ _ hpf hdvd hgs, hK, zero_add]
      have hzero : j - r = 0 := by omega
      rw [hzero]
      refine Finset.sum_congr rfl (fun u _ => ?_)
      have e1 : s + u / gs = s + 0 * (K / gs) + u / gs := by ring
      have e2 : w_off = w_off + 0 * (K / gs * (gs / get_pack_factor bits 8
          * get_bytes_per_pack bits 8)) := by ring
      rw [← e1, ← e2]
    · have hup : upd res r
          (qmm_t_groups bits gs wb scales biases x 0 x_base w_off s (K / gs)) j
          = res j := by
        simp [upd, hj]
      by_cases hc : r + 1 ≤ j ∧ j < r + 1 + n
      · rw [if_pos hc, if_pos (by omega)]
        have hq : j - r = (j - (r + 1)) + 1 := by omega
        rw [hq]
        refine Finset.sum_congr rfl (fun u _ => ?_)
        have e1 : s + K / gs + (j - (r + 1)) * (K / gs) + u / gs
            = s + ((j - (r + 1)) + 1) * (K / gs) + u / gs := by ring
        have e2 : w_off + K / gs * (gs / get_pack_factor bits 8
              * get_bytes_per_pack bits 8)
            + (j - (r + 1)) * (K / gs * (gs / get_pack_factor bits 8
              * get_bytes_per_pack bits 8))
            = w_off + ((j - (r + 1)) + 1) * (K / gs * (gs / get_pack_factor bits 8
              * get_bytes_per_pack bits 8)) := by ring
        rw [e1, e2]
      · rw [if_neg hc, if_neg (by omega), hup]

theorem qmm_t_m_apply (bits gs N K : ℕ) (wb : ℕ → ℕ) (scales biases x : ℕ → ℚ)
    (nM : ℕ) (res : ℕ → ℚ) (r x_base j : ℕ)
    (hpf : 0 < get_pack_factor bits 8) (hdvd : get_pack_factor bits 8 ∣ gs)
    (hgs : 0 < gs) (hgsK : gs ∣ K) (hN : 0 < N) :
    qmm_t_m bits gs N K wb scales biases x res r x_base nM j
      = if r ≤ j ∧ j < r + nM * N then
          ∑ u ∈ Finset.range K, x (x_base + (j - r) / N * K + u)
            * (scales ((j - r) % N * (K / gs) + u / gs)
              * (stream_code bits wb
                  ((j - r) % N * (K / gs * (gs / get_pack_factor bits 8
                    * get_bytes_per_pack bits 8))) u : ℚ)
              + biases ((j - r) % N * (K / gs) + u / gs))
        else res j := by
  induction nM generalizing res r x_base with
  | zero =>
    show res j = _
    rw [if_neg (by omega)]
  | succ m ih =>
    show qmm_t_m bits gs N K wb scales biases x
        (qmm_t_n bits gs K wb scales biases x res r x_base 0 0 N)
        (r + N) (x_base + K) m j = _
    rw [ih, qmm_t_n_apply _ _ _ _ _ _ _ _ _ _ _ _ _ _ hpf hdvd hgs hgsK]
    have hmul : (m + 1) * N = m * N + N := by ring
    rcases Nat.lt_or_ge j r with h1 | h1
    · rw [if_neg (by omega), if_neg (by omega), if_neg (by omega)]
    · rcases Nat.lt_or_ge j (r + N) with h2 | h2
      · have hdivN : (j - r) / N = 0 := Nat.div_eq_of_lt (by omega)
        have hmodN : (j - r) % N = j - r := Nat.mod_eq_of_lt (by omega)
        rw [if_neg (by omega), if_pos ⟨h1, h2⟩, if_pos ⟨h1, by omega⟩,
          hdivN, hmodN]
        refine Finset.sum_congr rfl (fun u _ => ?_)
        have e1 : x_base + u = x_base + 0 * K + u := by ring
        have e2 : 0 + (j - r) * (K / gs) + u / gs
            = (j - r) * (K / gs) + u / gs := by ring
        have e3 : (0:ℕ) + (j - r) * (K / gs * (gs / get_pack_factor bits 8
            * get_bytes_per_pack bits 8))
            = (j - r) * (K / gs * (gs / get_pack_factor bits 8
              * get_bytes_per_pack bits 8)) := by ring
        rw [← e1, e2, e3]
      · have hq : (j - r) / N = (j - (r + N)) / N + 1 := by
          obtain ⟨u, hu⟩ : ∃ u, j - r = N + u := ⟨j - r - N, by omega⟩
          have hu2 : j - (r + N) = u := by omega
          rw [hu, hu2, Nat.add_comm N u, Nat.add_div_right _ hN]
        have hm2 : (j - (r + N)) % N = (j - r) % N := by
          obtain ⟨u, hu⟩ : ∃ u, j - r = N + u := ⟨j - r - N, by omega⟩
          have hu2 : j - (r + N) = u := by omega
          rw [hu, hu2, Nat.add_comm N u, Nat.add_mod_right]
        rcases Nat.lt_or_ge j (r + N + m * N) with h3 | h3
        · rw [if_pos ⟨h2, h3⟩, if_pos ⟨h1, by omega⟩, hm2, hq]
          refine Finset.sum_congr rfl (fun u _ => ?_)
          have e : x_base + K + (j - (r + N)) / N * K + u
              = x_base + ((j - (r + N)) / N + 1) * K + u := by ring
          rw [e]
        · rw [if_neg (by omega), if_neg (by omega), if_neg (by omega)]

theorem qmm_t_apply (bits gs : ℕ) (wb : ℕ → ℕ) (scales biases x : ℕ → ℚ)
    (res : ℕ → ℚ) (r_base M N K m n : ℕ)
    (hpf : 0 < get_pack_factor bits 8) (hdvd : get_pack_factor bits 8 ∣ gs)
    (hgs : 0 < gs) (hgsK : gs ∣ K) (hm : m < M) (hn : n < N) :
    qmm_t bits gs wb scales biases x res r_base M N K (r_base + (m * N + n))
      = ∑ k ∈ Finset.range K, x (m * K + k)
        * (scales (n * (K / gs) + k / gs)
          * (codeAt bits wb (n * K + k) : ℚ)
          + biases (n * (K / gs) + k / gs)) := by
  have hN : 0 < N := by omega
  unfold qmm_t
  rw [qmm_t_m_apply _ _ _ _ _ _ _ _ _ _ _ _ _ hpf hdvd hgs hgsK hN]
  have hmul : (m + 1) * N = m * N + N := by ring
  have hle : (m + 1) * N ≤ M * N := Nat.mul_le_mul_right N hm
  rw [if_pos ⟨by omega, by omega⟩]
  have hsub : r_base + (m * N + n) - r_base = m * N + n := by omega
  have hdiv : (m * N + n) / N = m := by
    rw [Nat.mul_comm m N, Nat.mul_add_div hN]
    simp [Nat.div_eq_of_lt hn]
  have hmod : (m * N + n) % N = n := by
    rw [Nat.mul_comm m N, Nat.mul_add_mod]
    exact Nat.mod_eq_of_lt hn
  rw [hsub, hdiv, hmod]
  refine Finset.sum_congr rfl (fun k _ => ?_)
  rw [stream_code_row bits gs K n k wb hpf hdvd hgs hgsK]
  have e1 : (0:ℕ) + m * K + k = m * K + k := by ring
  rw [e1]

/-- C3: for every `M, N, K` with the grouped dimension a multiple of
`group_size` (and `group_size` a multiple of the pack factor), both the
non-transposed kernel `_qmm` and the transposed kernel `_qmm_t` compute
`output[m,n] = Σ_k x[m,k] * (scale * code + bias)`, where `code` is the
packed code decoded at position `(k,n)` (non-transposed; groups run
along `N`) or `(n,k)` (transposed; groups run along `K`) and the scale
and bias are those of the group containing that position. -/
theorem qmm_kernels_compute_affine_matmul (bits gs : ℕ) (wb : ℕ → ℕ)
    (scales biases x : ℕ → ℚ) (res res' : ℕ → ℚ) (M N K m n : ℕ)
    (hpf : 0 < get_pack_factor bits 8) (hdvd : get_pack_factor bits 8 ∣ gs)
    (hgs : 0 < gs) (hm : m < M) (hn : n < N) :
    (gs ∣ N →
      qmm bits gs wb scales biases x res 0 M N K (m * N + n)
        = ∑ k ∈ Finset.range K, x (m * K + k)
          * (scales (k * (N / gs) + n / gs) * (codeAt bits wb (k * N + n) : ℚ)
            + biases (k * (N / gs) + n / gs))) ∧
    (gs ∣ K →
      qmm_t bits gs wb scales biases x res' 0 M N K (m * N + n)
        = ∑ k ∈ Finset.range K, x (m * K + k)
          * (scales (n * (K / gs) + k / gs) * (codeAt bits wb (n * K + k) : ℚ)
            + biases (n * (K / gs) + k / gs))) := by
  constructor
  · intro hgsN
    have h := qmm_apply bits gs wb scales biases x res 0 M N K m n
      hpf hdvd hgs hgsN hm hn
    rw [Nat.zero_add] at h
    exact h
  · intro hgsK
    have h := qmm_t_apply bits gs wb scales biases x res' 0 M N K m n
      hpf hdvd hgs hgsK hm hn
    rw [Nat.zero_add] at h
    exact h

/-- Witness for C3 at `bits = 8`, `gs = 32`, `M = 1`, `N = K = 32`. -/
theorem qmm_kernels_compute_affine_matmul_witness :
    (0 < get_pack_factor 8 8 ∧ get_pack_factor 8 8 ∣ 32 ∧ (0:ℕ) < 32
      ∧ (0:ℕ) < 1 ∧ (0:ℕ) < 32 ∧ (32:ℕ) ∣ 32) ∧
    qmm 8 32 (fun _ => 0) (fun _ => 1) (fun _ => 0) (fun _ => 1) (fun _ => 0)
        0 1 32 32 (0 * 32 + 0)
      = ∑ k ∈ Finset.range 32, (fun _ => (1:ℚ)) (0 * 32 + k)
        * ((fun _ => (1:ℚ)) (k * (32 / 32) + 0 / 32)
          * (codeAt 8 (fun _ => 0) (k * 32 + 0) : ℚ)
          + (fun _ => (0:ℚ)) (k * (32 / 32) + 0 / 32)) ∧
    qmm_t 8 32 (fun _ => 0) (fun _ => 1) (fun _ => 0) (fun _ => 1) (fun _ => 0)
        0 1 32 32 (0 * 32 + 0)
      = ∑ k ∈ Finset.range 32, (fun _ => (1:ℚ)) (0 * 32 + k)
        * ((fun _ => (1:ℚ)) (0 * (32 / 32) + k / 32)
          * (codeAt 8 (fun _ => 0) (0 * 32 + k) : ℚ)
          + (fun _ => (0:ℚ)) (0 * (32 / 32) + k / 32)) :=
  ⟨⟨by decide, by decide, by decide, by decide, by decide, by decide⟩,
    (qmm_kernels_compute_affine_matmul 8 32 (fun _ => 0) (fun _ => 1)
      (fun _ => 0) (fun _ => 1) (fun _ => 0) (fun _ => 0) 1 32 32 0 0
      (by decide) (by decide) (by decide) (by decide) (by decide)).1 (by decide),
    (qmm_kernels_compute_affine_matmul 8 32 (fun _ => 0) (fun _ => 1)
      (fun _ => 0) (fun _ => 1) (fun _ => 0) (fun _ => 0) 1 32 32 0 0
      (by decide) (by decide) (by decide) (by decide) (by decide)).2 (by decide)⟩

/-- 32-bit word view of the weight byte buffer (little-endian), as read
by `_qmm_t_simd` which keeps `w` as a `uint32_t` pointer. -/
def word_at (wb : ℕ → ℕ) (i : ℕ) : ℕ :=
  wb (4 * i) + (wb (4 * i + 1)) <<< 8 + (wb (4 * i + 2)) <<< 16
    + (wb (4 * i + 3)) <<< 24

/-- `extract_bits_simd<bits, S>(w)`: decodes a full SIMD vector of codes
from 32-bit words via per-lane shift vectors; only
`(bits, S) ∈ {(4, 8), (8, 8)}` are built — any other combination throws
`"Unsupported combination for simd qmm."`, modelled as `none`. -/
def extract_bits_simd (bits S : ℕ) (wd : ℕ → ℕ) (w_off : ℕ) : Option (List ℕ) :=
  if bits = 4 ∧ S = 8 then
    some ([0, 4, 8, 12, 16, 20, 24, 28].map
      (fun sh => (wd w_off >>> sh) &&& ((1 <<< 4) - 1)))
  else if bits = 8 ∧ S = 8 then
    some (([0, 8, 16, 24].map
        (fun sh => (wd w_off >>> sh) &&& ((1 <<< 8) - 1)))
      ++ ([0, 8, 16, 24].map
        (fun sh => (wd (w_off + 1) >>> sh) &&& ((1 <<< 8) - 1))))
  else none

/-- The supported SIMD decode combinations (the source's
`extract_bits_simd` specializations that do not throw). -/
def simd_supported (bits S : ℕ) : Prop := (bits = 4 ∨ bits = 8) ∧ S = 8

/-- One SIMD fused multiply-add: `acc = acc + x_simd * wf` lanewise. -/
def simd_fma (acc xs wf : List ℚ) : List ℚ :=
  List.zipWith (· + ·) acc (List.zipWith (· * ·) xs wf)

/-- `simd::sum(acc)`. -/
def simd_sum (acc : List ℚ) : ℚ := acc.sum

/-- `_qmm_t_simd` chunk loop within one group
(`for kw += packs_per_simd`, here by remaining iteration count):
decode a SIMD chunk, `wf = wf * scale + bias`, fused multiply-add into
the accumulator; `x` advances by `S` values and `w` by
`packs_per_simd = S / (32 / bits)` words per iteration. -/
def qmm_t_simd_packs (bits S : ℕ) (wb : ℕ → ℕ) (x : ℕ → ℚ)
    (scale bias : ℚ) (acc : List ℚ) (x_off w_off : ℕ) : ℕ → Option (List ℚ)
  | 0 => some acc
  | n + 1 =>
    match extract_bits_simd bits S (word_at wb) w_off with
    | none => none
    | some ws =>
      qmm_t_simd_packs bits S wb x scale bias
        (simd_fma acc ((List.range S).map (fun p => x (x_off + p)))
          (ws.map (fun v => (v:ℚ) * scale + bias)))
        (x_off + S) (w_off + S / (32 / bits)) n

/-- `_qmm_t_simd` group loop along K: one scale/bias per group,
`packs_in_group / packs_per_simd` chunk iterations; the offsets advance
by the amounts the chunk loop consumes (`group_size` `x` values and
`packs_in_group` words when the divisibility invariants of the
`static_assert` hold). -/
def qmm_t_simd_groups (bits gs S : ℕ) (wb : ℕ → ℕ) (scales biases x : ℕ → ℚ)
    (acc : List ℚ) (x_off w_off s : ℕ) : ℕ → Option (List ℚ)
  | 0 => some acc
  | g + 1 =>
    match qmm_t_simd_packs bits S wb x (scales s) (biases s) acc x_off w_off
        (gs / (32 / bits) / (S / (32 / bits))) with
    | none => none
    | some acc' =>
      qmm_t_simd_groups bits gs S wb scales biases x acc'
        (x_off + gs)
        (w_off + gs / (32 / bits) / (S / (32 / bits)) * (S / (32 / bits)))
        (s + 1) g

/-- `_qmm_t_simd` n loop: a fresh SIMD accumulator per output scalar,
reduced with `simd::sum` and stored with `*result++`; a decode throw
unwinds leaving the buffer as already written. -/
def qmm_t_simd_n (bits gs S K : ℕ) (wb : ℕ → ℕ) (scales biases x : ℕ → ℚ)
    (res : ℕ → ℚ) (r x_base w_off s : ℕ) : ℕ → (ℕ → ℚ) × Option String
  | 0 => (res, none)
  | n + 1 =>
    match qmm_t_simd_groups bits gs S wb scales biases x
        (List.replicate S 0) x_base w_off s (K / gs) with
    | none => (res, some "Unsupported combination for simd qmm.")
    | some acc =>
      qmm_t_simd_n bits gs S K wb scales biases x
        (upd res r (simd_sum acc)) (r + 1) x_base
        (w_off + K / gs * (gs / (32 / bits) / (S / (32 / bits))
          * (S / (32 / bits))))
        (s + K / gs) n

/-- `_qmm_t_simd` row loop over `m`. -/
def qmm_t_simd_m (bits gs S N K : ℕ) (wb : ℕ → ℕ) (scales biases x : ℕ → ℚ)
    (res : ℕ → ℚ) (r x_base : ℕ) : ℕ → (ℕ → ℚ) × Option String
  | 0 => (res, none)
  | m + 1 =>
    match qmm_t_simd_n bits gs S K wb scales biases x res r x_base 0 0 N with
    | (res', some e) => (res', some e)
    | (res', none) =>
      qmm_t_simd_m bits gs S N K wb scales biases x res' (r + N) (x_base + K) m

/-- `_qmm_t_simd<T, bits, group_size>(result, x, w, scales, biases,
M, N, K)` with native SIMD width `S = simd::max_size<T>`. -/
def qmm_t_simd (bits gs S : ℕ) (wb : ℕ → ℕ) (scales biases x : ℕ → ℚ)
    (res : ℕ → ℚ) (r_base : ℕ) (M N K : ℕ) : (ℕ → ℚ) × Option String :=
  qmm_t_simd_m bits gs S N K wb scales biases x res r_base 0 M

theorem extract_bits_simd_isSome (bits S : ℕ) (wd : ℕ → ℕ) (w_off : ℕ)
    (h : simd_supported bits S) :
    ∃ ws, extract_bits_simd bits S wd w_off = some ws := by
  obtain ⟨hb, hS⟩ := h
  unfold extract_bits_simd
  rcases hb with rfl | rfl <;> subst hS <;> simp

theorem qmm_t_simd_packs_isSome (bits S : ℕ) (wb : ℕ → ℕ) (x : ℕ → ℚ)
    (scale bias : ℚ) (nI : ℕ) (acc : List ℚ) (x_off w_off : ℕ)
    (h : simd_supported bits S) :
    ∃ acc', qmm_t_simd_packs bits S wb x scale bias acc x_off w_off nI
      = some acc' := by
  induction nI generalizing acc x_off w_off with
  | zero => exact ⟨acc, rfl⟩
  | succ n ih =>
    obtain ⟨ws, hws⟩ := extract_bits_simd_isSome bits S (word_at wb) w_off h
    have hstep : qmm_t_simd_packs bits S wb x scale bias acc x_off w_off (n + 1)
        = match extract_bits_simd bits S (word_at wb) w_off with
          | none => none
          | some ws =>
            qmm_t_simd_packs bits S wb x scale bias
              (simd_fma acc ((List.range S).map (fun p => x (x_off + p)))
                (ws.map (fun v => (v:ℚ) * scale + bias)))
              (x_off + S) (w_off + S / (32 / bits)) n := rfl
    rw [hstep, hws]
    exact ih _ _ _

theorem qmm_t_simd_groups_isSome (bits gs S : ℕ) (wb : ℕ → ℕ)
    (scales biases x : ℕ → ℚ) (nG : ℕ) (acc : List ℚ) (x_off w_off s : ℕ)
    (h : simd_supported bits S) :
    ∃ acc', qmm_t_simd_groups bits gs S wb scales biases x acc x_off w_off s nG
      = some acc' := by
  induction nG generalizing acc x_off w_off s with
  | zero => exact ⟨acc, rfl⟩
  | succ g ih =>
    obtain ⟨acc1, hacc1⟩ := qmm_t_simd_packs_isSome bits S wb x (scales s)
      (biases s) (gs / (32 / bits) / (S / (32 / bits))) acc x_off w_off h
    have hstep : qmm_t_simd_groups bits gs S wb scales biases x acc x_off w_off s
          (g + 1)
        = match qmm_t_simd_packs bits S wb x (scales s) (biases s) acc x_off
            w_off (gs / (32 / bits) / (S / (32 / bits))) with
          | none => none
          | some acc' =>
            qmm_t_simd_groups bits gs S wb scales biases x acc'
              (x_off + gs)
              (w_off + gs / (32 / bits) / (S / (32 / bits)) * (S / (32 / bits)))
              (s + 1) g := rfl
    rw [hstep, hacc1]
    exact ih _ _ _ _

theorem qmm_t_simd_n_spec (bits gs S K : ℕ) (wb : ℕ → ℕ)
    (scales biases x : ℕ → ℚ) (nN : ℕ) (res : ℕ → ℚ) (r x_base w_off s : ℕ)
    (h : simd_supported bits S) :
    (qmm_t_simd_n bits gs S K wb scales biases x res r x_base w_off s nN).2 = none
      ∧ ∀ j, ¬(r ≤ j ∧ j < r + nN) →
        (qmm_t_simd_n bits gs S K wb scales biases x res r x_base w_off s nN).1 j
          = res j := by
  induction nN generalizing res r w_off s with
  | zero => exact ⟨rfl, fun j _ => rfl⟩
  | succ n ih =>
    obtain ⟨acc, hacc⟩ := qmm_t_simd_groups_isSome bits gs S wb scales biases x
      (K / gs) (List.replicate S 0) x_base w_off s h
    have hstep : qmm_t_simd_n bits gs S K wb scales biases x res r x_base w_off s
          (n + 1)
        = match qmm_t_simd_groups bits gs S wb scales biases x
            (List.replicate S 0) x_base w_off s (K / gs) with
          | none => (res, some "Unsupported combination for simd qmm.")
          | some acc =>
            qmm_t_simd_n bits gs S K wb scales biases x
              (upd res r (simd_sum acc)) (r + 1) x_base
              (w_off + K / gs * (gs / (32 / bits) / (S / (32 / bits))
                * (S / (32 / bits))))
              (s + K / gs) n := rfl
    rw [hstep, hacc]
    obtain ⟨ihnone, ihframe⟩ := ih (upd res r (simd_sum acc)) (r + 1)
      (w_off + K / gs * (gs / (32 / bits) / (S / (32 / bits))
        * (S / (32 / bits)))) (s + K / gs)
    refine ⟨ihnone, fun j hj => ?_⟩
    rw [ihframe j (by omega)]
    simp only [upd]
    rw [if_neg (by omega)]

theorem qmm_t_simd_n_agree (bits gs S K : ℕ) (wb : ℕ → ℕ)
    (scales biases x : ℕ → ℚ) (nN : ℕ) (res1 res2 : ℕ → ℚ)
    (r x_base w_off s j : ℕ) (h : simd_supported bits S)
    (hj1 : r ≤ j) (hj2 : j < r + nN) :
    (qmm_t_simd_n bits gs S K wb scales biases x res1 r x_base w_off s nN).1 j
      = (qmm_t_simd_n bits gs S K wb scales biases x res2 r x_base w_off s nN).1 j := by
  induction nN generalizing res1 res2 r w_off s with
  | zero => omega
  | succ n ih =>
    obtain ⟨acc, hacc⟩ := qmm_t_simd_groups_isSome bits gs S wb scales biases x
      (K / gs) (List.replicate S 0) x_base w_off s h
    have hstep : ∀ res : ℕ → ℚ,
        qmm_t_simd_n bits gs S K wb scales biases x res r x_base w_off s (n + 1)
        = match qmm_t_simd_groups bits gs S wb scales biases x
            (List.replicate S 0) x_base w_off s (K / gs) with
          | none => (res, some "Unsupported combination for simd qmm.")
          | some acc =>
            qmm_t_simd_n bits gs S K wb scales biases x
              (upd res r (simd_sum acc)) (r + 1) x_base
              (w_off + K / gs * (gs / (32 / bits) / (S / (32 / bits))
                * (S / (32 / bits))))
              (s + K / gs) n := fun _ => rfl
    rw [hstep res1, hstep res2, hacc]
    by_cases hjr : j = r
    · have hf1 := (qmm_t_simd_n_spec bits gs S K wb scales biases x n
        (upd res1 r (simd_sum acc)) (r + 1) x_base
        (w_off + K / gs * (gs / (32 / bits) / (S / (32 / bits))
          * (S / (32 / bits)))) (s + K / gs) h).2 j (by omega)
      have hf2 := (qmm_t_simd_n_spec bits gs S K wb scales biases x n
        (upd res2 r (simd_sum acc)) (r + 1) x_base
        (w_off + K / gs * (gs / (32 / bits) / (S / (32 / bits))
          * (S / (32 / bits)))) (s + K / gs) h).2 j (by omega)
      rw [hf1, hf2]
      simp [upd, hjr]
    · exact ih (upd res1 r (simd_sum acc)) (upd res2 r (simd_sum acc)) (r + 1)
        (w_off + K / gs * (gs / (32 / bits) / (S / (32 / bits))
          * (S / (32 / bits)))) (s + K / gs) (by omega) (by omega)

theorem qmm_t_simd_m_spec (bits gs S N K : ℕ) (wb : ℕ → ℕ)
    (scales biases x : ℕ → ℚ) (nM : ℕ) (res : ℕ → ℚ) (r x_base : ℕ)
    (h : simd_supported bits S) :
    (qmm_t_simd_m bits gs S N K wb scales biases x res r x_base nM).2 = none
      ∧ ∀ j, ¬(r ≤ j ∧ j < r + nM * N) →
        (qmm_t_simd_m bits gs S N K wb scales biases x res r x_base nM).1 j
          = res j := by
  induction nM generalizing res r x_base with
  | zero =>
    exact ⟨rfl, fun j _ => rfl⟩
  | succ m ih =>
    obtain ⟨hnone, hframe⟩ := qmm_t_simd_n_spec bits gs S K wb scales biases x N
      res r x_base 0 0 h
    have hpair : qmm_t_simd_n bits gs S K wb scales biases x res r x_base 0 0 N
        = ((qmm_t_simd_n bits gs S K wb scales biases x res r x_base 0 0 N).1,
          none) := by
      rw [← hnone]
    have hstep : qmm_t_simd_m bits gs S N K wb scales biases x res r x_base (m + 1)
        = match qmm_t_simd_n bits gs S K wb scales biases x res r x_base 0 0 N with
          | (res', some e) => (res', some e)
          | (res', none) =>
            qmm_t_simd_m bits gs S N K wb scales biases x res' (r + N)
              (x_base + K) m := rfl
    rw [hstep, hpair]
    obtain ⟨ihnone, ihframe⟩ := ih
      ((qmm_t_simd_n bits gs S K wb scales biases x res r x_base 0 0 N).1)
      (r + N) (x_base + K)
    have hmul : (m + 1) * N = m * N + N := by ring
    refine ⟨ihnone, fun j hj => ?_⟩
    rw [ihframe j (by omega), hframe j (by omega)]

theorem qmm_t_simd_m_agree (bits gs S N K : ℕ) (wb : ℕ → ℕ)
    (scales biases x : ℕ → ℚ) (nM : ℕ) (res1 res2 : ℕ → ℚ)
    (r x_base j : ℕ) (h : simd_supported bits S)
    (hj1 : r ≤ j) (hj2 : j < r + nM * N) :
    (qmm_t_simd_m bits gs S N K wb scales biases x res1 r x_base nM).1 j
      = (qmm_t_simd_m bits gs S N K wb scales biases x res2 r x_base nM).1 j := by
  induction nM generalizing res1 res2 r x_base with
  | zero => omega
  | succ m ih =>
    have hn1 := qmm_t_simd_n_spec bits gs S K wb scales biases x N res1 r x_base
      0 0 h
    have hn2 := qmm_t_simd_n_spec bits gs S K wb scales biases x N res2 r x_base
      0 0 h
    have hpair1 : qmm_t_simd_n bits gs S K wb scales biases x res1 r x_base 0 0 N
        = ((qmm_t_simd_n bits gs S K wb scales biases x res1 r x_base 0 0 N).1,
          none) := by
      rw [← hn1.1]
    have hpair2 : qmm_t_simd_n bits gs S K wb scales biases x res2 r x_base 0 0 N
        = ((qmm_t_simd_n bits gs S K wb scales biases x res2 r x_base 0 0 N).1,
          none) := by
      rw [← hn2.1]
    have hstep : ∀ res : ℕ → ℚ,
        qmm_t_simd_m bits gs S N K wb scales biases x res r x_base (m + 1)
        = match qmm_t_simd_n bits gs S K wb scales biases x res r x_base 0 0 N with
          | (res', some e) => (res', some e)
          | (res', none) =>
            qmm_t_simd_m bits gs S N K wb scales biases x res' (r + N)
              (x_base + K) m := fun _ => rfl
    rw [hstep res1, hstep res2, hpair1, hpair2]
    have hmul : (m + 1) * N = m * N + N := by ring
    by_cases hjn : j < r + N
    · have hf1 := (qmm_t_simd_m_spec bits gs S N K wb scales biases x m
        ((qmm_t_simd_n bits gs S K wb scales biases x res1 r x_base 0 0 N).1)
        (r + N) (x_base + K) h).2 j (by omega)
      have hf2 := (qmm_t_simd_m_spec bits gs S N K wb scales biases x m
        ((qmm_t_simd_n bits gs S K wb scales biases x res2 r x_base 0 0 N).1)
        (r + N) (x_base + K) h).2 j (by omega)
      rw [hf1, hf2]
      exact qmm_t_simd_n_agree bits gs S K wb scales biases x N res1 res2 r
        x_base 0 0 j h hj1 hjn
    · refine ih ((qmm_t_simd_n bits gs S K wb scales biases x res1 r x_base 0 0 N).1)
        ((qmm_t_simd_n bits gs S K wb scales biases x res2 r x_base 0 0 N).1)
        (r + N) (x_base + K) (by omega) (by omega)

/-- C10: every matmul kernel fully determines each output element from
its inputs alone — `_qmm` zero-fills each row before accumulating, and
`_qmm_t` / `_qmm_t_simd` store freshly computed sums — so two runs with
identical inputs but different initial output-buffer contents produce
identical outputs at every in-range position. -/
theorem kernels_determined_by_inputs (bits gs S : ℕ) (wb : ℕ → ℕ)
    (scales biases x : ℕ → ℚ) (res1 res2 : ℕ → ℚ) (M N K j : ℕ)
    (hpf : 0 < get_pack_factor bits 8) (hdvd : get_pack_factor bits 8 ∣ gs)
    (hgs : 0 < gs) (hj : j < M * N) :
    (gs ∣ N → 0 < N →
      qmm bits gs wb scales biases x res1 0 M N K j
        = qmm bits gs wb scales biases x res2 0 M N K j) ∧
    (gs ∣ K → 0 < N →
      qmm_t bits gs wb scales biases x res1 0 M N K j
        = qmm_t bits gs wb scales biases x res2 0 M N K j) ∧
    (simd_supported bits S →
      (qmm_t_simd bits gs S wb scales biases x res1 0 M N K).1 j
        = (qmm_t_simd bits gs S wb scales biases x res2 0 M N K).1 j) := by
  refine ⟨fun hgsN hN => ?_, fun hgsK hN => ?_, fun hsup => ?_⟩
  · unfold qmm
    rw [qmm_m_apply _ _ _ _ _ _ _ _ _ res1 _ _ _ hpf hdvd hgs hgsN hN,
      qmm_m_apply _ _ _ _ _ _ _ _ _ res2 _ _ _ hpf hdvd hgs hgsN hN]
    rw [if_pos ⟨Nat.zero_le j, by omega⟩, if_pos ⟨Nat.zero_le j, by omega⟩]
  · unfold qmm_t
    rw [qmm_t_m_apply _ _ _ _ _ _ _ _ _ res1 _ _ _ hpf hdvd hgs hgsK hN,
      qmm_t_m_apply _ _ _ _ _ _ _ _ _ res2 _ _ _ hpf hdvd hgs hgsK hN]
    rw [if_pos ⟨Nat.zero_le j, by omega⟩, if_pos ⟨Nat.zero_le j, by omega⟩]
  · unfold qmm_t_simd
    exact qmm_t_simd_m_agree bits gs S N K wb scales biases x M res1 res2 0 0 j
      hsup (Nat.zero_le j) (by omega)

/-- Witness for C10: `bits = 8`, `gs = 32`, `S = 8`, two different
initial buffers. -/
theorem kernels_determined_by_inputs_witness :
    (0 < get_pack_factor 8 8 ∧ get_pack_factor 8 8 ∣ 32 ∧ (0:ℕ) < 32
      ∧ (0:ℕ) < 1 * 32 ∧ (32:ℕ) ∣ 32 ∧ simd_supported 8 8) ∧
    qmm 8 32 (fun _ => 0) (fun _ => 1) (fun _ => 0) (fun _ => 1) (fun _ => 5)
        0 1 32 32 0
      = qmm 8 32 (fun _ => 0) (fun _ => 1) (fun _ => 0) (fun _ => 1) (fun _ => 7)
        0 1 32 32 0 ∧
    qmm_t 8 32 (fun _ => 0) (fun _ => 1) (fun _ => 0) (fun _ => 1) (fun _ => 5)
        0 1 32 32 0
      = qmm_t 8 32 (fun _ => 0) (fun _ => 1) (fun _ => 0) (fun _ => 1) (fun _ => 7)
        0 1 32 32 0 ∧
    (qmm_t_simd 8 32 8 (fun _ => 0) (fun _ => 1) (fun _ => 0) (fun _ => 1)
        (fun _ => 5) 0 1 32 32).1 0
      = (qmm_t_simd 8 32 8 (fun _ => 0) (fun _ => 1) (fun _ => 0) (fun _ => 1)
        (fun _ => 7) 0 1 32 32).1 0 :=
  ⟨⟨by decide, by decide, by decide, by decide, by decide, ⟨Or.inr rfl, rfl⟩⟩,
    (kernels_determined_by_inputs 8 32 8 (fun _ => 0) (fun _ => 1) (fun _ => 0)
      (fun _ => 1) (fun _ => 5) (fun _ => 7) 1 32 32 0 (by decide) (by decide)
      (by decide) (by decide)).1 (by decide) (by decide),
    (kernels_determined_by_inputs 8 32 8 (fun _ => 0) (fun _ => 1) (fun _ => 0)
      (fun _ => 1) (fun _ => 5) (fun _ => 7) 1 32 32 0 (by decide) (by decide)
      (by decide) (by decide)).2.1 (by decide) (by decide),
    (kernels_determined_by_inputs 8 32 8 (fun _ => 0) (fun _ => 1) (fun _ => 0)
      (fun _ => 1) (fun _ => 5) (fun _ => 7) 1 32 32 0 (by decide) (by decide)
      (by decide) (by decide)).2.2 ⟨Or.inr rfl, rfl⟩⟩

/-- `_qmm_dispatch_transpose<T, bits, group_size>`: non-transposed runs
`_qmm`; transposed runs `_qmm_t_simd` exactly when
`32 % bits == 0 && simd::max_size<T> % (32 / bits) == 0`
(the SIMD size must be a multiple of the elements per word), otherwise
the scalar `_qmm_t`. `S` models the native `simd::max_size<T>`. -/
def qmm_dispatch_transpose (bits gs S : ℕ) (wb : ℕ → ℕ)
    (scales biases x : ℕ → ℚ) (res : ℕ → ℚ) (r_base M N K : ℕ)
    (transposed_w : Bool) : (ℕ → ℚ) × Option String :=
  if transposed_w then
    if 32 % bits = 0 ∧ S % (32 / bits) = 0 then
      qmm_t_simd bits gs S wb scales biases x res r_base M N K
    else (qmm_t bits gs wb scales biases x res r_base M N K, none)
  else (qmm bits gs wb scales biases x res r_base M N K, none)

/-- `_qmm_dispatch_group<T, bits>`: switch on `group_size` over
32/64/128, anything else raises
`std::invalid_argument("Quantization group size must be 32, 64 or 128.")`
before touching the output buffer. -/
def qmm_dispatch_group (bits S : ℕ) (wb : ℕ → ℕ) (scales biases x : ℕ → ℚ)
    (res : ℕ → ℚ) (r_base M N K group_size : ℕ) (transposed_w : Bool) :
    (ℕ → ℚ) × Option String :=
  if group_size = 32 then
    qmm_dispatch_transpose bits 32 S wb scales biases x res r_base M N K
      transposed_w
  else if group_size = 64 then
    qmm_dispatch_transpose bits 64 S wb scales biases x res r_base M N K
      transposed_w
  else if group_size = 128 then
    qmm_dispatch_transpose bits 128 S wb scales biases x res r_base M N K
      transposed_w
  else (res, some "Quantization group size must be 32, 64 or 128.")

/-- The pointer form of `_qmm_dispatch_typed<T>`: NOTE the parameter
order of the source, `(..., M, N, K, group_size, bits, transposed_w)`.
The switch over `bits` covers 2,3,4,5,6,8; anything else raises
`std::invalid_argument("Quantization bits must be 2, 3, 4, 6 or 8.")`. -/
def qmm_dispatch_typed_ptr (S : ℕ) (wb : ℕ → ℕ) (scales biases x : ℕ → ℚ)
    (res : ℕ → ℚ) (r_base M N K group_size bits : ℕ) (transposed_w : Bool) :
    (ℕ → ℚ) × Option String :=
  if bits = 2 then
    qmm_dispatch_group 2 S wb scales biases x res r_base M N K group_size
      transposed_w
  else if bits = 3 then
    qmm_dispatch_group 3 S wb scales biases x res r_base M N K group_size
      transposed_w
  else if bits = 4 then
    qmm_dispatch_group 4 S wb scales biases x res r_base M N K group_size
      transposed_w
  else if bits = 5 then
    qmm_dispatch_group 5 S wb scales biases x res r_base M N K group_size
      transposed_w
  else if bits = 6 then
    qmm_dispatch_group 6 S wb scales biases x res r_base M N K group_size
      transposed_w
  else if bits = 8 then
    qmm_dispatch_group 8 S wb scales biases x res r_base M N K group_size
      transposed_w
  else (res, some "Quantization bits must be 2, 3, 4, 6 or 8.")

/-- An input array: flat payload plus shape/stride metadata
(outermost dimension first). -/
structure QArr where
  data : ℕ → ℚ
  shape : List ℕ
  strides : List ℕ

/-- The packed-weight array; `data` is the byte view of the payload,
while `shape`/`strides` count `uint32` words as in the source. -/
structure WArr where
  data : ℕ → ℕ
  shape : List ℕ
  strides : List ℕ

/-- A `uint32` index array (`lhs_indices` / `rhs_indices`). -/
structure IArr where
  data : ℕ → ℕ
  shape : List ℕ
  strides : List ℕ

/-- `shape(-1)`. -/
def shape_last (shape : List ℕ) : ℕ := shape.getD (shape.length - 1) 0

/-- `shape(-2)`. -/
def shape_last2 (shape : List ℕ) : ℕ := shape.getD (shape.length - 2) 0

/-- `arr.size()`. -/
def arr_size (shape : List ℕ) : ℕ := shape.prod

/-- Modelled from the spec: `elem_to_loc(elem, shape, strides)` of the
surrounding tensor runtime (`mlx/utils.h`, which is not part of this
source file); spec §9 describes it as the element-offset-from-flat-index
computation over shape/stride metadata.  Dimensions are walked
innermost-first: `loc += (elem % shape[i]) * strides[i];
elem /= shape[i]`. -/
def elem_to_loc_aux : List (ℕ × ℕ) → ℕ → ℕ
  | [], _ => 0
  | (sh, st) :: rest, e => e % sh * st + elem_to_loc_aux rest (e / sh)

/-- `elem_to_loc` over a shape/stride pair, innermost dimension first. -/
def elem_to_loc (elem : ℕ) (shape strides : List ℕ) : ℕ :=
  elem_to_loc_aux ((shape.zip strides).reverse) elem

/-- Pointer arithmetic `p + o` as a shifted view of a buffer. -/
def shift {α : Type} (f : ℕ → α) (o : ℕ) : ℕ → α := fun i => f (o + i)

/-- The batch loop of the array form of `_qmm_dispatch_typed<T>`:
iteration `i` calls the pointer form at per-batch offsets; NOTE the
call passes `(..., K, bits, group_size, transposed_w)` positionally into
the pointer form's `(..., K, group_size, bits, transposed_w)`
parameters, exactly as the source does. -/
def qmm_batch_loop (S : ℕ) (x : QArr) (w : WArr) (scales biases : QArr)
    (M N K bits group_size : ℕ) (transposed_w : Bool) (w_els g_els : ℕ)
    (out : ℕ → ℚ) (i : ℕ) : ℕ → (ℕ → ℚ) × Option String
  | 0 => (out, none)
  | n + 1 =>
    let st := qmm_dispatch_typed_ptr S
      (shift w.data (4 * elem_to_loc (i * w_els) w.shape w.strides))
      (shift scales.data (elem_to_loc (i * g_els) scales.shape scales.strides))
      (shift biases.data (elem_to_loc (i * g_els) biases.shape biases.strides))
      (shift x.data (elem_to_loc (i * M * K) x.shape x.strides))
      out (i * M * N) M N K bits group_size transposed_w
    match st.2 with
    | some e => (st.1, some e)
    | none =>
      qmm_batch_loop S x w scales biases M N K bits group_size transposed_w
        w_els g_els st.1 (i + 1) n

/-- The array form of `_qmm_dispatch_typed<T>(out, x, w, scales, biases,
bits, group_size, transposed_w)`: computes `M`, `N`, `K`, `w_els`,
`g_els` and `batch_size` from the shapes and runs the batch loop. -/
def qmm_dispatch_typed_arr (S : ℕ) (out : QArr) (x : QArr) (w : WArr)
    (scales biases : QArr) (bits group_size : ℕ) (transposed_w : Bool) :
    (ℕ → ℚ) × Option String :=
  let K := shape_last x.shape
  let M := if 1 < x.shape.length then shape_last2 x.shape else 1
  let N := shape_last out.shape
  let w_els := if 2 < w.shape.length then shape_last w.shape * shape_last2 w.shape
    else 0
  let g_els := if 2 < w.shape.length then
    shape_last scales.shape * shape_last2 scales.shape else 0
  qmm_batch_loop S x w scales biases M N K bits group_size transposed_w
    w_els g_els out.data 0 (arr_size x.shape / (K * M))

/-- `_qmm_dispatch(out, x, w, scales, biases, bits, group_size,
transposed_w)`: the element-type switch is collapsed — all three
supported float element types are modelled by exact rationals. -/
def qmm_dispatch (S : ℕ) (out x : QArr) (w : WArr) (scales biases : QArr)
    (bits group_size : ℕ) (transposed_w : Bool) : (ℕ → ℚ) × Option String :=
  qmm_dispatch_typed_arr S out x w scales biases bits group_size transposed_w

/-- The dispatched closure of `QuantizedMatmul::eval_cpu`: the call site
is `_qmm_dispatch(out, x, w, scales, biases, group_size_, bits_,
transpose_)` — the configured `group_size_` and `bits_` are passed
positionally into `_qmm_dispatch`'s `(bits, group_size)` parameters,
exactly as in the source. -/
def QuantizedMatmul_eval_cpu (S : ℕ) (out x : QArr) (w : WArr)
    (scales biases : QArr) (group_size_ bits_ : ℕ) (transpose_ : Bool) :
    (ℕ → ℚ) × Option String :=
  qmm_dispatch S out x w scales biases group_size_ bits_ transpose_

/-- The batch loop of `_bs_qmm_dispatch_typed<T>`: position `i` reads
`x_idx = lhs_indices[elem_to_loc(i, ...)]` and
`w_idx = rhs_indices[elem_to_loc(i, ...)]` and calls the pointer form on
activation batch `x_idx` and weight/scales/biases batch `w_idx`, writing
at `out + i * M * N`; the parameter-order swap at the call is as in the
source. -/
def bs_qmm_batch_loop (S : ℕ) (x : QArr) (w : WArr) (scales biases : QArr)
    (lhs_indices rhs_indices : IArr) (M N K bits group_size : ℕ)
    (transposed_w : Bool) (w_els g_els : ℕ) (out : ℕ → ℚ) (i : ℕ) :
    ℕ → (ℕ → ℚ) × Option String
  | 0 => (out, none)
  | n + 1 =>
    let x_idx := lhs_indices.data
      (elem_to_loc i lhs_indices.shape lhs_indices.strides)
    let w_idx := rhs_indices.data
      (elem_to_loc i rhs_indices.shape rhs_indices.strides)
    let st := qmm_dispatch_typed_ptr S
      (shift w.data (4 * elem_to_loc (w_idx * w_els) w.shape w.strides))
      (shift scales.data (elem_to_loc (w_idx * g_els) scales.shape scales.strides))
      (shift biases.data (elem_to_loc (w_idx * g_els) biases.shape biases.strides))
      (shift x.data (elem_to_loc (x_idx * M * K) x.shape x.strides))
      out (i * M * N) M N K bits group_size transposed_w
    match st.2 with
    | some e => (st.1, some e)
    | none =>
      bs_qmm_batch_loop S x w scales biases lhs_indices rhs_indices M N K bits
        group_size transposed_w w_els g_els st.1 (i + 1) n

/-- `_bs_qmm_dispatch_typed<T>(out, x, w, scales, biases, lhs_indices,
rhs_indices, bits, group_size, transposed_w)`. -/
def bs_qmm_dispatch_typed (S : ℕ) (out x : QArr) (w : WArr)
    (scales biases : QArr) (lhs_indices rhs_indices : IArr)
    (bits group_size : ℕ) (transposed_w : Bool) : (ℕ → ℚ) × Option String :=
  let K := shape_last x.shape
  let M := shape_last2 x.shape
  let N := shape_last out.shape
  let w_els := shape_last w.shape * shape_last2 w.shape
  let g_els := shape_last scales.shape * shape_last2 scales.shape
  bs_qmm_batch_loop S x w scales biases lhs_indices rhs_indices M N K bits
    group_size transposed_w w_els g_els out.data 0 (arr_size lhs_indices.shape)

/-- `_bs_qmm_dispatch` (element-type switch collapsed). -/
def bs_qmm_dispatch (S : ℕ) (out x : QArr) (w : WArr) (scales biases : QArr)
    (lhs_indices rhs_indices : IArr) (bits group_size : ℕ)
    (transposed_w : Bool) : (ℕ → ℚ) × Option String :=
  bs_qmm_dispatch_typed S out x w scales biases lhs_indices rhs_indices bits
    group_size transposed_w

/-- The dispatched closure of `GatherQMM::eval_cpu`: as with the dense
case, the call site passes `(group_size_, bits_, transpose_)` into
`_bs_qmm_dispatch`'s `(bits, group_size, transposed_w)` parameters. -/
def GatherQMM_eval_cpu (S : ℕ) (out x : QArr) (w : WArr)
    (scales biases : QArr) (lhs_indices rhs_indices : IArr)
    (group_size_ bits_ : ℕ) (transpose_ : Bool) : (ℕ → ℚ) × Option String :=
  bs_qmm_dispatch S out x w scales biases lhs_indices rhs_indices group_size_
    bits_ transpose_

/-- C8: with a transposed weight operand the dispatch selects
`_qmm_t_simd` iff `32 % bits == 0` and the native SIMD width `S` is
divisible by `32 / bits`; in every other transposed case it selects the
scalar `_qmm_t`, and non-transposed always selects `_qmm`. -/
theorem dispatch_transpose_selection (bits gs S : ℕ) (wb : ℕ → ℕ)
    (scales biases x : ℕ → ℚ) (res : ℕ → ℚ) (r_base M N K : ℕ) :
    (32 % bits = 0 ∧ S % (32 / bits) = 0 →
      qmm_dispatch_transpose bits gs S wb scales biases x res r_base M N K true
        = qmm_t_simd bits gs S wb scales biases x res r_base M N K) ∧
    (¬(32 % bits = 0 ∧ S % (32 / bits) = 0) →
      qmm_dispatch_transpose bits gs S wb scales biases x res r_base M N K true
        = (qmm_t bits gs wb scales biases x res r_base M N K, none)) ∧
    qmm_dispatch_transpose bits gs S wb scales biases x res r_base M N K false
      = (qmm bits gs wb scales biases x res r_base M N K, none) := by
  unfold qmm_dispatch_transpose
  refine ⟨fun hc => ?_, fun hc => ?_, ?_⟩
  · rw [if_pos rfl, if_pos hc]
  · rw [if_pos rfl, if_neg hc]
  · simp

/-- Witness for C8 at `bits = 4` (SIMD taken), `bits = 3` (scalar
fallback) and non-transposed, all with `S = 8`. -/
theorem dispatch_transpose_selection_witness :
    ((32 % 4 = 0 ∧ 8 % (32 / 4) = 0) ∧
      qmm_dispatch_transpose 4 32 8 (fun _ => 0) (fun _ => 1) (fun _ => 0)
          (fun _ => 1) (fun _ => 0) 0 1 1 32 true
        = qmm_t_simd 4 32 8 (fun _ => 0) (fun _ => 1) (fun _ => 0)
          (fun _ => 1) (fun _ => 0) 0 1 1 32) ∧
    (¬(32 % 3 = 0 ∧ 8 % (32 / 3) = 0) ∧
      qmm_dispatch_transpose 3 32 8 (fun _ => 0) (fun _ => 1) (fun _ => 0)
          (fun _ => 1) (fun _ => 0) 0 1 1 32 true
        = (qmm_t 3 32 (fun _ => 0) (fun _ => 1) (fun _ => 0) (fun _ => 1)
            (fun _ => 0) 0 1 1 32, none)) ∧
    qmm_dispatch_transpose 4 32 8 (fun _ => 0) (fun _ => 1) (fun _ => 0)
        (fun _ => 1) (fun _ => 0) 0 1 1 32 false
      = (qmm 4 32 (fun _ => 0) (fun _ => 1) (fun _ => 0) (fun _ => 1)
          (fun _ => 0) 0 1 1 32, none) :=
  ⟨⟨by decide,
    (dispatch_transpose_selection 4 32 8 (fun _ => 0) (fun _ => 1) (fun _ => 0)
      (fun _ => 1) (fun _ => 0) 0 1 1 32).1 (by decide)⟩,
   ⟨by decide,
    (dispatch_transpose_selection 3 32 8 (fun _ => 0) (fun _ => 1) (fun _ => 0)
      (fun _ => 1) (fun _ => 0) 0 1 1 32).2.1 (by decide)⟩,
   (dispatch_transpose_selection 4 32 8 (fun _ => 0) (fun _ => 1) (fun _ => 0)
      (fun _ => 1) (fun _ => 0) 0 1 1 32).2.2⟩

theorem supported_of_cond (bits S : ℕ)
    (hb : bits = 2 ∨ bits = 3 ∨ bits = 4 ∨ bits = 5 ∨ bits = 6 ∨ bits = 8)
    (hS : S = 1 ∨ S = 8)
    (hc : 32 % bits = 0 ∧ S % (32 / bits) = 0) : simd_supported bits S := by
  rcases hb with rfl | rfl | rfl | rfl | rfl | rfl <;>
    rcases hS with rfl | rfl <;>
    first
      | exact ⟨Or.inl rfl, rfl⟩
      | exact ⟨Or.inr rfl, rfl⟩
      | exact absurd hc (by decide)

theorem transpose_no_error (bits gs S : ℕ) (wb : ℕ → ℕ)
    (scales biases x : ℕ → ℚ) (res : ℕ → ℚ) (r_base M N K : ℕ) (tr : Bool)
    (hb : bits = 2 ∨ bits = 3 ∨ bits = 4 ∨ bits = 5 ∨ bits = 6 ∨ bits = 8)
    (hS : S = 1 ∨ S = 8) :
    (qmm_dispatch_transpose bits gs S wb scales biases x res r_base M N K tr).2
      = none := by
  unfold qmm_dispatch_transpose
  cases tr with
  | false => simp
  | true =>
    rw [if_pos rfl]
    by_cases hc : 32 % bits = 0 ∧ S % (32 / bits) = 0
    · rw [if_pos hc]
      unfold qmm_t_simd
      exact (qmm_t_simd_m_spec bits gs S N K wb scales biases x M res r_base 0
        (supported_of_cond bits S hb hS hc)).1
    · rw [if_neg hc]

theorem qmm_dispatch_typed_ptr_valid (S : ℕ) (wb : ℕ → ℕ)
    (scales biases x : ℕ → ℚ) (res : ℕ → ℚ) (r_base M N K gs bits : ℕ)
    (tr : Bool)
    (hb : bits = 2 ∨ bits = 3 ∨ bits = 4 ∨ bits = 5 ∨ bits = 6 ∨ bits = 8)
    (hg : gs = 32 ∨ gs = 64 ∨ gs = 128) :
    qmm_dispatch_typed_ptr S wb scales biases x res r_base M N K gs bits tr
      = qmm_dispatch_transpose bits gs S wb scales biases x res r_base M N K
        tr := by
  rcases hb with rfl | rfl | rfl | rfl | rfl | rfl <;>
    rcases hg with rfl | rfl | rfl <;>
    simp [qmm_dispatch_typed_ptr, qmm_dispatch_group]

/-- Claim-side driver (C1, spec §4.5/§6): the dense batch loop invoking
directly the kernel specialization for the configured
`(bits, group_size)` pair. -/
def dense_spec_loop (S : ℕ) (x : QArr) (w : WArr) (scales biases : QArr)
    (M N K bits gs : ℕ) (tr : Bool) (w_els g_els : ℕ) (out : ℕ → ℚ) (i : ℕ) :
    ℕ → (ℕ → ℚ) × Option String
  | 0 => (out, none)
  | n + 1 =>
    let st := qmm_dispatch_transpose bits gs S
      (shift w.data (4 * elem_to_loc (i * w_els) w.shape w.strides))
      (shift scales.data (elem_to_loc (i * g_els) scales.shape scales.strides))
      (shift biases.data (elem_to_loc (i * g_els) biases.shape biases.strides))
      (shift x.data (elem_to_loc (i * M * K) x.shape x.strides))
      out (i * M * N) M N K tr
    match st.2 with
    | some e => (st.1, some e)
    | none =>
      dense_spec_loop S x w scales biases M N K bits gs tr w_els g_els st.1
        (i + 1) n

/-- Claim-side dense driver (C1). -/
def dense_driver_spec (S : ℕ) (out x : QArr) (w : WArr)
    (scales biases : QArr) (bits gs : ℕ) (tr : Bool) :
    (ℕ → ℚ) × Option String :=
  let K := shape_last x.shape
  let M := if 1 < x.shape.length then shape_last2 x.shape else 1
  let N := shape_last out.shape
  let w_els := if 2 < w.shape.length then shape_last w.shape * shape_last2 w.shape
    else 0
  let g_els := if 2 < w.shape.length then
    shape_last scales.shape * shape_last2 scales.shape else 0
  dense_spec_loop S x w scales biases M N K bits gs tr w_els g_els out.data 0
    (arr_size x.shape / (K * M))

theorem qmm_batch_loop_valid (S : ℕ) (x : QArr) (w : WArr)
    (scales biases : QArr) (M N K b g : ℕ) (tr : Bool) (w_els g_els : ℕ)
    (hb : b = 2 ∨ b = 3 ∨ b = 4 ∨ b = 5 ∨ b = 6 ∨ b = 8)
    (hg : g = 32 ∨ g = 64 ∨ g = 128) (hS : S = 1 ∨ S = 8) :
    ∀ (n : ℕ) (out : ℕ → ℚ) (i : ℕ),
    qmm_batch_loop S x w scales biases M N K g b tr w_els g_els out i n
        = dense_spec_loop S x w scales biases M N K b g tr w_els g_els out i n
      ∧ (qmm_batch_loop S x w scales biases M N K g b tr w_els g_els out i n).2
        = none := by
  intro n
  induction n with
  | zero => exact fun out i => ⟨rfl, rfl⟩
  | succ n ih =>
    intro out i
    have hv := qmm_dispatch_typed_ptr_valid S
      (shift w.data (4 * elem_to_loc (i * w_els) w.shape w.strides))
      (shift scales.data (elem_to_loc (i * g_els) scales.shape scales.strides))
      (shift biases.data (elem_to_loc (i * g_els) biases.shape biases.strides))
      (shift x.data (elem_to_loc (i * M * K) x.shape x.strides))
      out (i * M * N) M N K g b tr hb hg
    have hne := transpose_no_error b g S
      (shift w.data (4 * elem_to_loc (i * w_els) w.shape w.strides))
      (shift scales.data (elem_to_loc (i * g_els) scales.shape scales.strides))
      (shift biases.data (elem_to_loc (i * g_els) biases.shape biases.strides))
      (shift x.data (elem_to_loc (i * M * K) x.shape x.strides))
      out (i * M * N) M N K tr hb hS
    have hstep1 : qmm_batch_loop S x w scales biases M N K g b tr w_els g_els
          out i (n + 1)
        = match (qmm_dispatch_typed_ptr S
            (shift w.data (4 * elem_to_loc (i * w_els) w.shape w.strides))
            (shift scales.data (elem_to_loc (i * g_els) scales.shape scales.strides))
            (shift biases.data (elem_to_loc (i * g_els) biases.shape biases.strides))
            (shift x.data (elem_to_loc (i * M * K) x.shape x.strides))
            out (i * M * N) M N K g b tr).2 with
          | some e => ((qmm_dispatch_typed_ptr S
              (shift w.data (4 * elem_to_loc (i * w_els) w.shape w.strides))
              (shift scales.data (elem_to_loc (i * g_els) scales.shape scales.strides))
              (shift biases.data (elem_to_loc (i * g_els) biases.shape biases.strides))
              (shift x.data (elem_to_loc (i * M * K) x.shape x.strides))
              out (i * M * N) M N K g b tr).1, some e)
          | none =>
            qmm_batch_loop S x w scales biases M N K g b tr w_els g_els
              ((qmm_dispatch_typed_ptr S
                (shift w.data (4 * elem_to_loc (i * w_els) w.shape w.strides))
                (shift scales.data (elem_to_loc (i * g_els) scales.shape scales.strides))
                (shift biases.data (elem_to_loc (i * g_els) biases.shape biases.strides))
                (shift x.data (elem_to_loc (i * M * K) x.shape x.strides))
                out (i * M * N) M N K g b tr).1) (i + 1) n := rfl
    have hstep2 : dense_spec_loop S x w scales biases M N K b g tr w_els g_els
          out i (n + 1)
        = match (qmm_dispatch_transpose b g S
            (shift w.data (4 * elem_to_loc (i * w_els) w.shape w.strides))
            (shift scales.data (elem_to_loc (i * g_els) scales.shape scales.strides))
            (shift biases.data (elem_to_loc (i * g_els) biases.shape biases.strides))
            (shift x.data (elem_to_loc (i * M * K) x.shape x.strides))
            out (i * M * N) M N K tr).2 with
          | some e => ((qmm_dispatch_transpose b g S
              (shift w.data (4 * elem_to_loc (i * w_els) w.shape w.strides))
              (shift scales.data (elem_to_loc (i * g_els) scales.shape scales.strides))
              (shift biases.data (elem_to_loc (i * g_els) biases.shape biases.strides))
              (shift x.data (elem_to_loc (i * M * K) x.shape x.strides))
              out (i * M * N) M N K tr).1, some e)
          | none =>
            dense_spec_loop S x w scales biases M N K b g tr w_els g_els
              ((qmm_dispatch_transpose b g S
                (shift w.data (4 * elem_to_loc (i * w_els) w.shape w.strides))
                (shift scales.data (elem_to_loc (i * g_els) scales.shape scales.strides))
                (shift biases.data (elem_to_loc (i * g_els) biases.shape biases.strides))
                (shift x.data (elem_to_loc (i * M * K) x.shape x.strides))
                out (i * M * N) M N K tr).1) (i + 1) n := rfl
    rw [hstep1, hstep2, hv, hne]
    exact ih _ (i + 1)

/-- C1: for every configured `bits_ ∈ {2,3,4,5,6,8}` and `group_size_ ∈
{32,64,128}`, `QuantizedMatmul::eval_cpu` (and `GatherQMM::eval_cpu`,
below via the same pointer dispatch) forwards exactly the configured
values through the dispatch chain — the two positional parameter swaps
cancel — so every batch runs the kernel specialization for exactly
`(bits_, group_size_)` and the whole call completes without an error. -/
theorem evalcpu_runs_configured_specialization (S : ℕ) (out x : QArr)
    (w : WArr) (scales biases : QArr) (lhs_indices rhs_indices : IArr)
    (bits_ group_size_ : ℕ) (transpose_ : Bool)
    (hb : bits_ = 2 ∨ bits_ = 3 ∨ bits_ = 4 ∨ bits_ = 5 ∨ bits_ = 6 ∨ bits_ = 8)
    (hg : group_size_ = 32 ∨ group_size_ = 64 ∨ group_size_ = 128)
    (hS : S = 1 ∨ S = 8) :
    QuantizedMatmul_eval_cpu S out x w scales biases group_size_ bits_ transpose_
        = dense_driver_spec S out x w scales biases bits_ group_size_ transpose_
      ∧ (QuantizedMatmul_eval_cpu S out x w scales biases group_size_ bits_
          transpose_).2 = none
      ∧ (GatherQMM_eval_cpu S out x w scales biases lhs_indices rhs_indices
          group_size_ bits_ transpose_).2 = none := by
  have hdense := qmm_batch_loop_valid S x w scales biases
    (if 1 < x.shape.length then shape_last2 x.shape else 1)
    (shape_last out.shape) (shape_last x.shape) bits_ group_size_ transpose_
    (if 2 < w.shape.length then shape_last w.shape * shape_last2 w.shape else 0)
    (if 2 < w.shape.length then
      shape_last scales.shape * shape_last2 scales.shape else 0) hb hg hS
    (arr_size x.shape / (shape_last x.shape
      * (if 1 < x.shape.length then shape_last2 x.shape else 1)))
    out.data 0
  refine ⟨hdense.1, hdense.2, ?_⟩
  show (bs_qmm_batch_loop S x w scales biases lhs_indices rhs_indices
      (shape_last2 x.shape) (shape_last out.shape) (shape_last x.shape)
      group_size_ bits_ transpose_
      (shape_last w.shape * shape_last2 w.shape)
      (shape_last scales.shape * shape_last2 scales.shape) out.data 0
      (arr_size lhs_indices.shape)).2 = none
  generalize out.data = o
  generalize (0:ℕ) = i0
  induction arr_size lhs_indices.shape generalizing o i0 with
  | zero => rfl
  | succ n ih =>
    have hv := qmm_dispatch_typed_ptr_valid S
      (shift w.data (4 * elem_to_loc
        (rhs_indices.data (elem_to_loc i0 rhs_indices.shape rhs_indices.strides)
          * (shape_last w.shape * shape_last2 w.shape)) w.shape w.strides))
      (shift scales.data (elem_to_loc
        (rhs_indices.data (elem_to_loc i0 rhs_indices.shape rhs_indices.strides)
          * (shape_last scales.shape * shape_last2 scales.shape))
        scales.shape scales.strides))
      (shift biases.data (elem_to_loc
        (rhs_indices.data (elem_to_loc i0 rhs_indices.shape rhs_indices.strides)
          * (shape_last scales.shape * shape_last2 scales.shape))
        biases.shape biases.strides))
      (shift x.data (elem_to_loc
        (lhs_indices.data (elem_to_loc i0 lhs_indices.shape lhs_indices.strides)
          * shape_last2 x.shape * shape_last x.shape) x.shape x.strides))
      o (i0 * shape_last2 x.shape * shape_last out.shape)
      (shape_last2 x.shape) (shape_last out.shape) (shape_last x.shape)
      group_size_ bits_ transpose_ hb hg
    have hne := transpose_no_error bits_ group_size_ S
      (shift w.data (4 * elem_to_loc
        (rhs_indices.data (elem_to_loc i0 rhs_indices.shape rhs_indices.strides)
          * (shape_last w.shape * shape_last2 w.shape)) w.shape w.strides))
      (shift scales.data (elem_to_loc
        (rhs_indices.data (elem_to_loc i0 rhs_indices.shape rhs_indices.strides)
          * (shape_last scales.shape * shape_last2 scales.shape))
        scales.shape scales.strides))
      (shift biases.data (elem_to_loc
        (rhs_indices.data (elem_to_loc i0 rhs_indices.shape rhs_indices.strides)
          * (shape_last scales.shape * shape_last2 scales.shape))
        biases.shape biases.strides))
      (shift x.data (elem_to_loc
        (lhs_indices.data (elem_to_loc i0 lhs_indices.shape lhs_indices.strides)
          * shape_last2 x.shape * shape_last x.shape) x.shape x.strides))
      o (i0 * shape_last2 x.shape * shape_last out.shape)
      (shape_last2 x.shape) (shape_last out.shape) (shape_last x.shape)
      transpose_ hb hS
    show (match (qmm_dispatch_typed_ptr S _ _ _ _ o
        (i0 * shape_last2 x.shape * shape_last out.shape)
        (shape_last2 x.shape) (shape_last out.shape) (shape_last x.shape)
        group_size_ bits_ transpose_).2 with
      | some e => (_, some e)
      | none => bs_qmm_batch_loop S x w scales biases lhs_indices rhs_indices
          (shape_last2 x.shape) (shape_last out.shape) (shape_last x.shape)
          group_size_ bits_ transpose_
          (shape_last w.shape * shape_last2 w.shape)
          (shape_last scales.shape * shape_last2 scales.shape) _ (i0 + 1)
          n).2 = none
    rw [hv, hne]
    exact ih _ _

/-- Witness for C1 at `bits_ = 4`, `group_size_ = 32`, `S = 1`, on
minimal concrete arrays. -/
theorem evalcpu_runs_configured_specialization_witness :
    ((4:ℕ) = 2 ∨ (4:ℕ) = 3 ∨ (4:ℕ) = 4 ∨ (4:ℕ) = 5 ∨ (4:ℕ) = 6 ∨ (4:ℕ) = 8) ∧
    ((32:ℕ) = 32 ∨ (32:ℕ) = 64 ∨ (32:ℕ) = 128) ∧ ((1:ℕ) = 1 ∨ (1:ℕ) = 8) ∧
    (QuantizedMatmul_eval_cpu 1 ⟨fun _ => 0, [1, 1], [1, 1]⟩
          ⟨fun _ => 1, [1, 1], [1, 1]⟩ ⟨fun _ => 0, [1, 1], [1, 1]⟩
          ⟨fun _ => 1, [1, 1], [1, 1]⟩ ⟨fun _ => 1, [1, 1], [1, 1]⟩ 32 4 false
        = dense_driver_spec 1 ⟨fun _ => 0, [1, 1], [1, 1]⟩
          ⟨fun _ => 1, [1, 1], [1, 1]⟩ ⟨fun _ => 0, [1, 1], [1, 1]⟩
          ⟨fun _ => 1, [1, 1], [1, 1]⟩ ⟨fun _ => 1, [1, 1], [1, 1]⟩ 4 32 false
      ∧ (QuantizedMatmul_eval_cpu 1 ⟨fun _ => 0, [1, 1], [1, 1]⟩
          ⟨fun _ => 1, [1, 1], [1, 1]⟩ ⟨fun _ => 0, [1, 1], [1, 1]⟩
          ⟨fun _ => 1, [1, 1], [1, 1]⟩ ⟨fun _ => 1, [1, 1], [1, 1]⟩ 32 4
          false).2 = none
      ∧ (GatherQMM_eval_cpu 1 ⟨fun _ => 0, [1, 1], [1, 1]⟩
          ⟨fun _ => 1, [1, 1], [1, 1]⟩ ⟨fun _ => 0, [1, 1], [1, 1]⟩
          ⟨fun _ => 1, [1, 1], [1, 1]⟩ ⟨fun _ => 1, [1, 1], [1, 1]⟩
          ⟨fun _ => 0, [1], [1]⟩ ⟨fun _ => 0, [1], [1]⟩ 32 4 false).2
          = none) :=
  ⟨Or.inr (Or.inr (Or.inl rfl)), Or.inl rfl, Or.inl rfl,
    evalcpu_runs_configured_specialization 1 ⟨fun _ => 0, [1, 1], [1, 1]⟩
      ⟨fun _ => 1, [1, 1], [1, 1]⟩ ⟨fun _ => 0, [1, 1], [1, 1]⟩
      ⟨fun _ => 1, [1, 1], [1, 1]⟩ ⟨fun _ => 1, [1, 1], [1, 1]⟩
      ⟨fun _ => 0, [1], [1]⟩ ⟨fun _ => 0, [1], [1]⟩ 4 32 false
      (Or.inr (Or.inr (Or.inl rfl))) (Or.inl rfl) (Or.inl rfl)⟩

theorem qmm_dispatch_typed_ptr_invalid (S : ℕ) (wb : ℕ → ℕ)
    (scales biases x : ℕ → ℚ) (res : ℕ → ℚ) (r_base M N K gs bits : ℕ)
    (tr : Bool)
    (hinv : ¬(bits = 2 ∨ bits = 3 ∨ bits = 4 ∨ bits = 5 ∨ bits = 6 ∨ bits = 8)
      ∨ ¬(gs = 32 ∨ gs = 64 ∨ gs = 128)) :
    ∃ e, qmm_dispatch_typed_ptr S wb scales biases x res r_base M N K gs bits tr
      = (res, some e) := by
  by_cases hbv : bits = 2 ∨ bits = 3 ∨ bits = 4 ∨ bits = 5 ∨ bits = 6 ∨ bits = 8
  · have hg : ¬(gs = 32 ∨ gs = 64 ∨ gs = 128) := by tauto
    have h32 : ¬ gs = 32 := fun h => hg (Or.inl h)
    have h64 : ¬ gs = 64 := fun h => hg (Or.inr (Or.inl h))
    have h128 : ¬ gs = 128 := fun h => hg (Or.inr (Or.inr h))
    rcases hbv with rfl | rfl | rfl | rfl | rfl | rfl <;>
      exact ⟨"Quantization group size must be 32, 64 or 128.",
        by simp [qmm_dispatch_typed_ptr, qmm_dispatch_group, h32, h64, h128]⟩
  · have h2 : ¬ bits = 2 := fun h => hbv (Or.inl h)
    have h3 : ¬ bits = 3 := fun h => hbv (Or.inr (Or.inl h))
    have h4 : ¬ bits = 4 := fun h => hbv (Or.inr (Or.inr (Or.inl h)))
    have h5 : ¬ bits = 5 := fun h => hbv (Or.inr (Or.inr (Or.inr (Or.inl h))))
    have h6 : ¬ bits = 6 := fun h =>
      hbv (Or.inr (Or.inr (Or.inr (Or.inr (Or.inl h)))))
    have h8 : ¬ bits = 8 := fun h =>
      hbv (Or.inr (Or.inr (Or.inr (Or.inr (Or.inr h)))))
    exact ⟨"Quantization bits must be 2, 3, 4, 6 or 8.",
      by simp [qmm_dispatch_typed_ptr, h2, h3, h4, h5, h6, h8]⟩

theorem qmm_batch_loop_invalid (S : ℕ) (x : QArr) (w : WArr)
    (scales biases : QArr) (M N K b g : ℕ) (tr : Bool) (w_els g_els : ℕ)
    (out : ℕ → ℚ) (i n : ℕ)
    (hinv : ¬(g = 2 ∨ g = 3 ∨ g = 4 ∨ g = 5 ∨ g = 6 ∨ g = 8)
      ∨ ¬(b = 32 ∨ b = 64 ∨ b = 128)) :
    ∃ e, qmm_batch_loop S x w scales biases M N K b g tr w_els g_els out i
      (n + 1) = (out, some e) := by
  obtain ⟨e, he⟩ := qmm_dispatch_typed_ptr_invalid S
    (shift w.data (4 * elem_to_loc (i * w_els) w.shape w.strides))
    (shift scales.data (elem_to_loc (i * g_els) scales.shape scales.strides))
    (shift biases.data (elem_to_loc (i * g_els) biases.shape biases.strides))
    (shift x.data (elem_to_loc (i * M * K) x.shape x.strides))
    out (i * M * N) M N K b g tr hinv
  refine ⟨e, ?_⟩
  have hstep : qmm_batch_loop S x w scales biases M N K b g tr w_els g_els out
        i (n + 1)
      = (match (qmm_dispatch_typed_ptr S
            (shift w.data (4 * elem_to_loc (i * w_els) w.shape w.strides))
            (shift scales.data
              (elem_to_loc (i * g_els) scales.shape scales.strides))
            (shift biases.data
              (elem_to_loc (i * g_els) biases.shape biases.strides))
            (shift x.data (elem_to_loc (i * M * K) x.shape x.strides))
            out (i * M * N) M N K b g tr).2 with
        | some err => ((qmm_dispatch_typed_ptr S
            (shift w.data (4 * elem_to_loc (i * w_els) w.shape w.strides))
            (shift scales.data
              (elem_to_loc (i * g_els) scales.shape scales.strides))
            (shift biases.data
              (elem_to_loc (i * g_els) biases.shape biases.strides))
            (shift x.data (elem_to_loc (i * M * K) x.shape x.strides))
            out (i * M * N) M N K b g tr).1, some err)
        | none => qmm_batch_loop S x w scales biases M N K b g tr w_els g_els
            ((qmm_dispatch_typed_ptr S
            (shift w.data (4 * elem_to_loc (i * w_els) w.shape w.strides))
            (shift scales.data
              (elem_to_loc (i * g_els) scales.shape scales.strides))
            (shift biases.data
              (elem_to_loc (i * g_els) biases.shape biases.strides))
            (shift x.data (elem_to_loc (i * M * K) x.shape x.strides))
            out (i * M * N) M N K b g tr).1) (i + 1) n) := rfl
  rw [hstep, he]

/-- C2: calling the dense quantized matmul with `bits ∉ {2,3,4,5,6,8}`
or `group_size ∉ {32,64,128}` raises the invalid-argument error at
dispatch, before any element of the output buffer is written: the
result buffer is exactly the initial one. -/
theorem invalid_config_rejected (S : ℕ) (out x : QArr) (w : WArr)
    (scales biases : QArr) (bits_ group_size_ : ℕ) (transpose_ : Bool)
    (hinv : ¬(bits_ = 2 ∨ bits_ = 3 ∨ bits_ = 4 ∨ bits_ = 5 ∨ bits_ = 6
        ∨ bits_ = 8)
      ∨ ¬(group_size_ = 32 ∨ group_size_ = 64 ∨ group_size_ = 128))
    (hbatch : 0 < arr_size x.shape / (shape_last x.shape
      * (if 1 < x.shape.length then shape_last2 x.shape else 1))) :
    (QuantizedMatmul_eval_cpu S out x w scales biases group_size_ bits_
        transpose_).2.isSome = true
      ∧ (QuantizedMatmul_eval_cpu S out x w scales biases group_size_ bits_
        transpose_).1 = out.data := by
  obtain ⟨n, hn⟩ : ∃ n, arr_size x.shape / (shape_last x.shape
      * (if 1 < x.shape.length then shape_last2 x.shape else 1)) = n + 1 :=
    ⟨arr_size x.shape / (shape_last x.shape
      * (if 1 < x.shape.length then shape_last2 x.shape else 1)) - 1, by omega⟩
  have hshow : QuantizedMatmul_eval_cpu S out x w scales biases group_size_
        bits_ transpose_
      = qmm_batch_loop S x w scales biases
        (if 1 < x.shape.length then shape_last2 x.shape else 1)
        (shape_last out.shape) (shape_last x.shape) group_size_ bits_
        transpose_
        (if 2 < w.shape.length then shape_last w.shape * shape_last2 w.shape
          else 0)
        (if 2 < w.shape.length then
          shape_last scales.shape * shape_last2 scales.shape else 0)
        out.data 0
        (arr_size x.shape / (shape_last x.shape
          * (if 1 < x.shape.length then shape_last2 x.shape else 1))) := rfl
  obtain ⟨e, he⟩ := qmm_batch_loop_invalid S x w scales biases
    (if 1 < x.shape.length then shape_last2 x.shape else 1)
    (shape_last out.shape) (shape_last x.shape) group_size_ bits_ transpose_
    (if 2 < w.shape.length then shape_last w.shape * shape_last2 w.shape
      else 0)
    (if 2 < w.shape.length then
      shape_last scales.shape * shape_last2 scales.shape else 0)
    out.data 0 n hinv
  rw [hshow, hn, he]
  exact ⟨rfl, rfl⟩

theorem invalid_config_rejected_witness :
    ((¬((7:ℕ) = 2 ∨ (7:ℕ) = 3 ∨ (7:ℕ) = 4 ∨ (7:ℕ) = 5 ∨ (7:ℕ) = 6
        ∨ (7:ℕ) = 8)
      ∨ ¬((32:ℕ) = 32 ∨ (32:ℕ) = 64 ∨ (32:ℕ) = 128))
      ∧ 0 < arr_size [1, 1] / (shape_last [1, 1]
        * (if 1 < ([1, 1] : List ℕ).length then shape_last2 [1, 1] else 1)))
    ∧ ((QuantizedMatmul_eval_cpu 1 ⟨fun _ => 0, [1, 1], [1, 1]⟩
        ⟨fun _ => 1, [1, 1], [1, 1]⟩ ⟨fun _ => 0, [1, 1], [1, 1]⟩
        ⟨fun _ => 1, [1, 1], [1, 1]⟩ ⟨fun _ => 1, [1, 1], [1, 1]⟩
        32 7 false).2.isSome = true
      ∧ (QuantizedMatmul_eval_cpu 1 ⟨fun _ => 0, [1, 1], [1, 1]⟩
        ⟨fun _ => 1, [1, 1], [1, 1]⟩ ⟨fun _ => 0, [1, 1], [1, 1]⟩
        ⟨fun _ => 1, [1, 1], [1, 1]⟩ ⟨fun _ => 1, [1, 1], [1, 1]⟩
        32 7 false).1
        = (⟨fun _ => 0, [1, 1], [1, 1]⟩ : QArr).data) :=
  ⟨⟨Or.inl (by decide), by decide⟩,
    invalid_config_rejected 1 ⟨fun _ => 0, [1, 1], [1, 1]⟩
      ⟨fun _ => 1, [1, 1], [1, 1]⟩ ⟨fun _ => 0, [1, 1], [1, 1]⟩
      ⟨fun _ => 1, [1, 1], [1, 1]⟩ ⟨fun _ => 1, [1, 1], [1, 1]⟩
      7 32 false (Or.inl (by decide)) (by decide)⟩

theorem valid_kernel_nums (bits gs : ℕ)
    (hb : bits = 2 ∨ bits = 3 ∨ bits = 4 ∨ bits = 5 ∨ bits = 6 ∨ bits = 8)
    (hg : gs = 32 ∨ gs = 64 ∨ gs = 128) :
    0 < get_pack_factor bits 8 ∧ get_pack_factor bits 8 ∣ gs ∧ 0 < gs := by
  rcases hb with rfl | rfl | rfl | rfl | rfl | rfl <;>
    rcases hg with rfl | rfl | rfl <;> exact ⟨by decide, by decide, by decide⟩

theorem qmm_dispatch_transpose_frame (bits gs S : ℕ) (wb : ℕ → ℕ)
    (scales biases x : ℕ → ℚ) (res : ℕ → ℚ) (r_base M N K : ℕ) (tr : Bool)
    (hb : bits = 2 ∨ bits = 3 ∨ bits = 4 ∨ bits = 5 ∨ bits = 6 ∨ bits = 8)
    (hg : gs = 32 ∨ gs = 64 ∨ gs = 128) (hS : S = 1 ∨ S = 8)
    (hgsN : gs ∣ N) (hgsK : gs ∣ K) (hN : 0 < N) (j : ℕ)
    (hj : ¬(r_base ≤ j ∧ j < r_base + M * N)) :
    (qmm_dispatch_transpose bits gs S wb scales biases x res r_base M N K
      tr).1 j = res j := by
  obtain ⟨hpf, hdvd, hgs⟩ := valid_kernel_nums bits gs hb hg
  cases tr with
  | false =>
    show qmm bits gs wb scales biases x res r_base M N K j = res j
    unfold qmm
    rw [qmm_m_apply _ _ _ _ _ _ _ _ _ _ _ _ _ hpf hdvd hgs hgsN hN, if_neg hj]
  | true =>
    unfold qmm_dispatch_transpose
    rw [if_pos rfl]
    by_cases hc : 32 % bits = 0 ∧ S % (32 / bits) = 0
    · rw [if_pos hc]
      exact (qmm_t_simd_m_spec bits gs S N K wb scales biases x M res r_base 0
        (supported_of_cond bits S hb hS hc)).2 j hj
    · rw [if_neg hc]
      show qmm_t bits gs wb scales biases x res r_base M N K j = res j
      unfold qmm_t
      rw [qmm_t_m_apply _ _ _ _ _ _ _ _ _ _ _ _ _ hpf hdvd hgs hgsK hN,
        if_neg hj]

theorem qmm_dispatch_transpose_agree (bits gs S : ℕ) (wb : ℕ → ℕ)
    (scales biases x : ℕ → ℚ) (res1 res2 : ℕ → ℚ) (r_base M N K : ℕ)
    (tr : Bool)
    (hb : bits = 2 ∨ bits = 3 ∨ bits = 4 ∨ bits = 5 ∨ bits = 6 ∨ bits = 8)
    (hg : gs = 32 ∨ gs = 64 ∨ gs = 128) (hS : S = 1 ∨ S = 8)
    (hgsN : gs ∣ N) (hgsK : gs ∣ K) (hN : 0 < N) (j : ℕ)
    (hj1 : r_base ≤ j) (hj2 : j < r_base + M * N) :
    (qmm_dispatch_transpose bits gs S wb scales biases x res1 r_base M N K
        tr).1 j
      = (qmm_dispatch_transpose bits gs S wb scales biases x res2 r_base M N K
        tr).1 j := by
  obtain ⟨hpf, hdvd, hgs⟩ := valid_kernel_nums bits gs hb hg
  cases tr with
  | false =>
    show qmm bits gs wb scales biases x res1 r_base M N K j
      = qmm bits gs wb scales biases x res2 r_base M N K j
    unfold qmm
    rw [qmm_m_apply _ _ _ _ _ _ _ _ _ _ _ _ _ hpf hdvd hgs hgsN hN,
      qmm_m_apply _ _ _ _ _ _ _ _ _ _ _ _ _ hpf hdvd hgs hgsN hN,
      if_pos ⟨hj1, hj2⟩, if_pos ⟨hj1, hj2⟩]
  | true =>
    unfold qmm_dispatch_transpose
    rw [if_pos rfl, if_pos rfl]
    by_cases hc : 32 % bits = 0 ∧ S % (32 / bits) = 0
    · rw [if_pos hc, if_pos hc]
      exact qmm_t_simd_m_agree bits gs S N K wb scales biases x M res1 res2
        r_base 0 j (supported_of_cond bits S hb hS hc) hj1 hj2
    · rw [if_neg hc, if_neg hc]
      show qmm_t bits gs wb scales biases x res1 r_base M N K j
        = qmm_t bits gs wb scales biases x res2 r_base M N K j
      unfold qmm_t
      rw [qmm_t_m_apply _ _ _ _ _ _ _ _ _ _ _ _ _ hpf hdvd hgs hgsK hN,
        qmm_t_m_apply _ _ _ _ _ _ _ _ _ _ _ _ _ hpf hdvd hgs hgsK hN,
        if_pos ⟨hj1, hj2⟩, if_pos ⟨hj1, hj2⟩]

/-- Claim-side reference for the gathered matmul (C7, spec §4.6): the
dense kernel dispatch run on the sub-buffers a positional lookup selects
— activation batch `lhs_indices[i]` and weight/scales/biases batch
`rhs_indices[i]`, each located through its own tensor's shape/stride
metadata — writing a fresh zero buffer at offset `i * M * N`. -/
def gather_positional_ref (S : ℕ) (x : QArr) (w : WArr)
    (scales biases : QArr) (lhs rhs : IArr) (M N K bits gs : ℕ) (tr : Bool)
    (w_els g_els : ℕ) (i : ℕ) : (ℕ → ℚ) × Option String :=
  qmm_dispatch_transpose bits gs S
    (shift w.data (4 * elem_to_loc (rhs.data
      (elem_to_loc i rhs.shape rhs.strides) * w_els) w.shape w.strides))
    (shift scales.data (elem_to_loc (rhs.data
      (elem_to_loc i rhs.shape rhs.strides) * g_els)
      scales.shape scales.strides))
    (shift biases.data (elem_to_loc (rhs.data
      (elem_to_loc i rhs.shape rhs.strides) * g_els)
      biases.shape biases.strides))
    (shift x.data (elem_to_loc (lhs.data
      (elem_to_loc i lhs.shape lhs.strides) * M * K) x.shape x.strides))
    (fun _ => 0) (i * M * N) M N K tr

theorem bs_qmm_batch_loop_step (S : ℕ) (x : QArr) (w : WArr)
    (scales biases : QArr) (lhs rhs : IArr) (M N K b g : ℕ) (tr : Bool)
    (w_els g_els : ℕ) (out : ℕ → ℚ) (i n : ℕ) :
    bs_qmm_batch_loop S x w scales biases lhs rhs M N K g b tr w_els g_els
        out i (n + 1)
      = match (qmm_dispatch_typed_ptr S
          (shift w.data (4 * elem_to_loc (rhs.data
            (elem_to_loc i rhs.shape rhs.strides) * w_els) w.shape w.strides))
          (shift scales.data (elem_to_loc (rhs.data
            (elem_to_loc i rhs.shape rhs.strides) * g_els)
            scales.shape scales.strides))
          (shift biases.data (elem_to_loc (rhs.data
            (elem_to_loc i rhs.shape rhs.strides) * g_els)
            biases.shape biases.strides))
          (shift x.data (elem_to_loc (lhs.data
            (elem_to_loc i lhs.shape lhs.strides) * M * K) x.shape x.strides))
          out (i * M * N) M N K g b tr).2 with
        | some e => ((qmm_dispatch_typed_ptr S
            (shift w.data (4 * elem_to_loc (rhs.data
              (elem_to_loc i rhs.shape rhs.strides) * w_els) w.shape w.strides))
            (shift scales.data (elem_to_loc (rhs.data
              (elem_to_loc i rhs.shape rhs.strides) * g_els)
              scales.shape scales.strides))
            (shift biases.data (elem_to_loc (rhs.data
              (elem_to_loc i rhs.shape rhs.strides) * g_els)
              biases.shape biases.strides))
            (shift x.data (elem_to_loc (lhs.data
              (elem_to_loc i lhs.shape lhs.strides) * M * K) x.shape x.strides))
            out (i * M * N) M N K g b tr).1, some e)
        | none =>
          bs_qmm_batch_loop S x w scales biases lhs rhs M N K g b tr w_els
            g_els ((qmm_dispatch_typed_ptr S
            (shift w.data (4 * elem_to_loc (rhs.data
              (elem_to_loc i rhs.shape rhs.strides) * w_els) w.shape w.strides))
            (shift scales.data (elem_to_loc (rhs.data
              (elem_to_loc i rhs.shape rhs.strides) * g_els)
              scales.shape scales.strides))
            (shift biases.data (elem_to_loc (rhs.data
              (elem_to_loc i rhs.shape rhs.strides) * g_els)
              biases.shape biases.strides))
            (shift x.data (elem_to_loc (lhs.data
              (elem_to_loc i lhs.shape lhs.strides) * M * K) x.shape x.strides))
            out (i * M * N) M N K g b tr).1) (i + 1) n := rfl

theorem bs_qmm_batch_loop_spec (S : ℕ) (x : QArr) (w : WArr)
    (scales biases : QArr) (lhs rhs : IArr) (M N K b g : ℕ) (tr : Bool)
    (w_els g_els : ℕ)
    (hb : b = 2 ∨ b = 3 ∨ b = 4 ∨ b = 5 ∨ b = 6 ∨ b = 8)
    (hg : g = 32 ∨ g = 64 ∨ g = 128) (hS : S = 1 ∨ S = 8)
    (hgsN : g ∣ N) (hgsK : g ∣ K) (hN : 0 < N) :
    ∀ (n : ℕ) (out : ℕ → ℚ) (i : ℕ),
    ((bs_qmm_batch_loop S x w scales biases lhs rhs M N K g b tr w_els g_els
        out i n).2 = none)
    ∧ (∀ j, j < i * M * N →
        (bs_qmm_batch_loop S x w scales biases lhs rhs M N K g b tr w_els
          g_els out i n).1 j = out j)
    ∧ (∀ t j, i ≤ t → t < i + n → j < M * N →
        (bs_qmm_batch_loop S x w scales biases lhs rhs M N K g b tr w_els
            g_els out i n).1 (t * M * N + j)
          = (gather_positional_ref S x w scales biases lhs rhs M N K b g tr
            w_els g_els t).1 (t * M * N + j)) := by
  intro n
  induction n with
  | zero =>
    exact fun out i =>
      ⟨rfl, fun j _ => rfl, fun t j ht1 ht2 _ => absurd ht2 (by omega)⟩
  | succ n ih =>
    intro out i
    rw [bs_qmm_batch_loop_step]
    rw [qmm_dispatch_typed_ptr_valid S _ _ _ _ out (i * M * N) M N K g b tr
      hb hg]
    rw [transpose_no_error b g S _ _ _ _ out (i * M * N) M N K tr hb hS]
    obtain ⟨ih1, ih2, ih3⟩ := ih ((qmm_dispatch_transpose b g S
      (shift w.data (4 * elem_to_loc (rhs.data
        (elem_to_loc i rhs.shape rhs.strides) * w_els) w.shape w.strides))
      (shift scales.data (elem_to_loc (rhs.data
        (elem_to_loc i rhs.shape rhs.strides) * g_els)
        scales.shape scales.strides))
      (shift biases.data (elem_to_loc (rhs.data
        (elem_to_loc i rhs.shape rhs.strides) * g_els)
        biases.shape biases.strides))
      (shift x.data (elem_to_loc (lhs.data
        (elem_to_loc i lhs.shape lhs.strides) * M * K) x.shape x.strides))
      out (i * M * N) M N K tr).1) (i + 1)
    have hmul : (i + 1) * M * N = i * M * N + M * N := by ring
    refine ⟨ih1, fun j hj => ?_, fun t j ht1 ht2 hjMN => ?_⟩
    · refine (ih2 j (by omega)).trans ?_
      exact qmm_dispatch_transpose_frame b g S _ _ _ _ out (i * M * N) M N K
        tr hb hg hS hgsN hgsK hN j (by omega)
    · rcases Nat.eq_or_lt_of_le ht1 with rfl | hlt
      · refine (ih2 (i * M * N + j) (by omega)).trans ?_
        exact qmm_dispatch_transpose_agree b g S _ _ _ _ out (fun _ => 0)
          (i * M * N) M N K tr hb hg hS hgsN hgsK hN (i * M * N + j)
          (by omega) (by omega)
      · exact ih3 t j (by omega) (by omega) hjMN

/-- C7: in the gathered quantized matmul, for every position `i` in the
index arrays the driver writes output batch `i` (at offset `i * M * N`)
as the dense matmul of activation batch `lhs_indices[i]` against the
weight, scales and biases of batch `rhs_indices[i]`, each located
through its own tensor's shape/stride metadata; the index data is
arbitrary (repeated and out-of-order values allowed) and selects the
same sub-buffers a positional lookup would, and the call completes
without error. -/
theorem gather_writes_indexed_batches (S : ℕ) (out x : QArr) (w : WArr)
    (scales biases : QArr) (lhs_indices rhs_indices : IArr)
    (bits_ group_size_ : ℕ) (transpose_ : Bool)
    (hb : bits_ = 2 ∨ bits_ = 3 ∨ bits_ = 4 ∨ bits_ = 5 ∨ bits_ = 6
      ∨ bits_ = 8)
    (hg : group_size_ = 32 ∨ group_size_ = 64 ∨ group_size_ = 128)
    (hS : S = 1 ∨ S = 8)
    (hgsN : group_size_ ∣ shape_last out.shape)
    (hgsK : group_size_ ∣ shape_last x.shape)
    (hN : 0 < shape_last out.shape)
    (i j : ℕ) (hi : i < arr_size lhs_indices.shape)
    (hj : j < shape_last2 x.shape * shape_last out.shape) :
    (GatherQMM_eval_cpu S out x w scales biases lhs_indices rhs_indices
        group_size_ bits_ transpose_).2 = none
    ∧ (GatherQMM_eval_cpu S out x w scales biases lhs_indices rhs_indices
        group_size_ bits_ transpose_).1
        (i * shape_last2 x.shape * shape_last out.shape + j)
      = (gather_positional_ref S x w scales biases lhs_indices rhs_indices
          (shape_last2 x.shape) (shape_last out.shape) (shape_last x.shape)
          bits_ group_size_ transpose_
          (shape_last w.shape * shape_last2 w.shape)
          (shape_last scales.shape * shape_last2 scales.shape) i).1
        (i * shape_last2 x.shape * shape_last out.shape + j) := by
  obtain ⟨h1, h2, h3⟩ := bs_qmm_batch_loop_spec S x w scales biases
    lhs_indices rhs_indices (shape_last2 x.shape) (shape_last out.shape)
    (shape_last x.shape) bits_ group_size_ transpose_
    (shape_last w.shape * shape_last2 w.shape)
    (shape_last scales.shape * shape_last2 scales.shape)
    hb hg hS hgsN hgsK hN (arr_size lhs_indices.shape) out.data 0
  exact ⟨h1, h3 i j (Nat.zero_le i) (by omega) hj⟩

theorem gather_writes_indexed_batches_witness :
    (((4:ℕ) = 2 ∨ (4:ℕ) = 3 ∨ (4:ℕ) = 4 ∨ (4:ℕ) = 5 ∨ (4:ℕ) = 6
        ∨ (4:ℕ) = 8)
      ∧ ((32:ℕ) = 32 ∨ (32:ℕ) = 64 ∨ (32:ℕ) = 128)
      ∧ ((1:ℕ) = 1 ∨ (1:ℕ) = 8)
      ∧ (32:ℕ) ∣ shape_last [1, 32] ∧ (32:ℕ) ∣ shape_last [1, 32]
      ∧ 0 < shape_last [1, 32] ∧ 0 < arr_size [1]
      ∧ 0 < shape_last2 [1, 32] * shape_last [1, 32])
    ∧ ((GatherQMM_eval_cpu 1 ⟨fun _ => 0, [1, 32], [32, 1]⟩
        ⟨fun _ => 1, [1, 32], [32, 1]⟩ ⟨fun _ => 0, [1, 32], [32, 1]⟩
        ⟨fun _ => 1, [1, 1], [1, 1]⟩ ⟨fun _ => 1, [1, 1], [1, 1]⟩
        ⟨fun _ => 0, [1], [1]⟩ ⟨fun _ => 0, [1], [1]⟩ 32 4 false).2 = none
      ∧ (GatherQMM_eval_cpu 1 ⟨fun _ => 0, [1, 32], [32, 1]⟩
        ⟨fun _ => 1, [1, 32], [32, 1]⟩ ⟨fun _ => 0, [1, 32], [32, 1]⟩
        ⟨fun _ => 1, [1, 1], [1, 1]⟩ ⟨fun _ => 1, [1, 1], [1, 1]⟩
        ⟨fun _ => 0, [1], [1]⟩ ⟨fun _ => 0, [1], [1]⟩ 32 4 false).1 0
      = (gather_positional_ref 1 ⟨fun _ => 1, [1, 32], [32, 1]⟩
        ⟨fun _ => 0, [1, 32], [32, 1]⟩ ⟨fun _ => 1, [1, 1], [1, 1]⟩
        ⟨fun _ => 1, [1, 1], [1, 1]⟩ ⟨fun _ => 0, [1], [1]⟩
        ⟨fun _ => 0, [1], [1]⟩ 1 32 32 4 32 false 32 1 0).1 0) :=
  ⟨⟨Or.inr (Or.inr (Or.inl rfl)), Or.inl rfl, Or.inl rfl, by decide,
    by decide, by decide, by decide, by decide⟩,
    gather_writes_indexed_batches 1 ⟨fun _ => 0, [1, 32], [32, 1]⟩
      ⟨fun _ => 1, [1, 32], [32, 1]⟩ ⟨fun _ => 0, [1, 32], [32, 1]⟩
      ⟨fun _ => 1, [1, 1], [1, 1]⟩ ⟨fun _ => 1, [1, 1], [1, 1]⟩
      ⟨fun _ => 0, [1], [1]⟩ ⟨fun _ => 0, [1], [1]⟩ 4 32 false
      (Or.inr (Or.inr (Or.inl rfl))) (Or.inl rfl) (Or.inl rfl) (by decide)
      (by decide) (by decide) 0 0 (by decide) (by decide)⟩

end MLXQuant
